import Mathlib

/-
  Verification development for xyz2sgf.py, a GIB/NGF/UGF → SGF converter.

  The Python source is embedded shallowly:
  * machine integers are `Int` (Python ints are unbounded, signed);
  * the board array `state` (an (N+1)×(N+1) list of lists in the source, of
    which only indexes 1..N are ever read or written on the guarded paths)
    is embedded as a total function `Int → Int → Nat`;
  * functions that can raise are embedded as `Except PyErr _`;
  * the recursive liberty search and group destruction are embedded with an
    explicit fuel parameter; running out of fuel yields the artificial error
    `PyErr.fuelOut`, and it is proved below that the canonical fuel
    `fuelBound` never runs out on the calls the program actually makes.

  Note on exceptions: the module defines only the exception classes
  `BadBoardSize`, `ParserFail` and `UnknownFormat`.  The name `OffBoard`,
  raised in `Board.play_move` and listed in the handler
  `except (IndexError, OffBoard)` of `Node.update`, is never defined, so at
  run time `raise OffBoard` raises `NameError`, and evaluating the handler
  tuple while handling any exception raises `NameError` as well.  The
  embedding reproduces this: the off-board branch of `play_move` produces
  `PyErr.nameError`, and the handler in `update` converts every error of the
  guarded block into `PyErr.nameError` instead of swallowing it.
-/

namespace Xyz2sgf

/-- Cell values, from `EMPTY, BLACK, WHITE = 0, 1, 2`. -/
def EMPTY : Nat := 0

/-- Cell value for a black stone. -/
def BLACK : Nat := 1

/-- Cell value for a white stone. -/
def WHITE : Nat := 2

/-- A board coordinate pair (Python ints). -/
abbrev IPoint := Int × Int

/-- Errors a Python run of the embedded code can end in, plus the
artificial `fuelOut` marker used by the fuel-indexed recursions. -/
inductive PyErr where
  | indexError
  | nameError
  | valueError
  | badBoardSize
  | assertFail
  | fuelOut
  deriving DecidableEq, Repr

/-- The board.  `state` is the cell array; cells outside 1..boardsize are
never read or written by the guarded code paths of the source. -/
structure Board where
  boardsize : Nat
  state : Int → Int → Nat

/-- `Board.__init__`: a boardsize×boardsize board of EMPTY cells. -/
def Board.init (boardsize : Nat) : Board :=
  { boardsize := boardsize, state := fun _ _ => EMPTY }

/-- A single cell write `self.state[x][y] = v`. -/
def Board.set (b : Board) (x y : Int) (v : Nat) : Board :=
  { b with state := fun i j => if i = x ∧ j = y then v else b.state i j }

/-- The in-range coordinate pairs 1..n × 1..n as a finite set. -/
def inRangeF (n : Nat) : Finset IPoint :=
  Finset.Icc (1 : Int) n ×ˢ Finset.Icc (1 : Int) n

/-- `adjacent_points(x, y, boardsize)`: the up-to-four orthogonal
neighbours inside the board.  The source builds a set from this exact
candidate list; the four candidates are pairwise distinct, so a list in
insertion order is a faithful embedding. -/
def adjacent_points (x y : Int) (boardsize : Nat) : List IPoint :=
  [(x - 1, y), (x + 1, y), (x, y - 1), (x, y + 1)].filter
    (fun p => 1 ≤ p.1 ∧ p.1 ≤ (boardsize : Int) ∧ 1 ≤ p.2 ∧ p.2 ≤ (boardsize : Int))

/-- Canonical fuel: one more than the number of board points.  Proved
sufficient for every call the program makes. -/
def fuelBound (b : Board) : Nat := b.boardsize * b.boardsize + 1

mutual

/-- `Board.__group_has_liberties(x, y)` with the visited set
`stones_checked` threaded explicitly.  The two `assert` statements of the
source are embedded as `assertFail` errors. -/
def ghlF (fuel : Nat) (b : Board) (checked : Finset IPoint) (x y : Int) :
    Except PyErr (Bool × Finset IPoint) :=
  match fuel with
  | 0 => .error .fuelOut
  | fuel + 1 =>
    if 1 ≤ x ∧ x ≤ (b.boardsize : Int) ∧ 1 ≤ y ∧ y ≤ (b.boardsize : Int) then
      if b.state x y = BLACK ∨ b.state x y = WHITE then
        ghlLoopF fuel b (b.state x y) (insert (x, y) checked)
          (adjacent_points x y b.boardsize)
      else .error .assertFail
    else .error .assertFail

/-- The neighbour loop of `__group_has_liberties`. -/
def ghlLoopF (fuel : Nat) (b : Board) (colour : Nat) (checked : Finset IPoint)
    (pts : List IPoint) : Except PyErr (Bool × Finset IPoint) :=
  match pts with
  | [] => .ok (false, checked)
  | (i, j) :: rest =>
    if b.state i j = EMPTY then .ok (true, checked)
    else if b.state i j = colour ∧ (i, j) ∉ checked then
      match ghlF fuel b checked i j with
      | .error e => .error e
      | .ok (true, c') => .ok (true, c')
      | .ok (false, c') => ghlLoopF fuel b colour c' rest
    else ghlLoopF fuel b colour checked rest

end

/-- `Board.group_has_liberties(x, y)`: asserts the coordinates are on the
board, resets `stones_checked` to the empty set, and runs the search. -/
def group_has_liberties (b : Board) (x y : Int) : Except PyErr Bool :=
  if 1 ≤ x ∧ x ≤ (b.boardsize : Int) ∧ 1 ≤ y ∧ y ≤ (b.boardsize : Int) then
    match ghlF (fuelBound b) b ∅ x y with
    | .error e => .error e
    | .ok (r, _) => .ok r
  else .error .assertFail

mutual

/-- `Board.destroy_group(x, y)`: asserts, empties the cell, then recurses
into each same-coloured orthogonal neighbour of the mutated board. -/
def destroyF (fuel : Nat) (b : Board) (x y : Int) : Except PyErr Board :=
  match fuel with
  | 0 => .error .fuelOut
  | fuel + 1 =>
    if 1 ≤ x ∧ x ≤ (b.boardsize : Int) ∧ 1 ≤ y ∧ y ≤ (b.boardsize : Int) then
      if b.state x y = BLACK ∨ b.state x y = WHITE then
        destroyLoopF fuel (b.state x y) (b.set x y EMPTY)
          (adjacent_points x y b.boardsize)
      else .error .assertFail
    else .error .assertFail

/-- The neighbour loop of `destroy_group`; the board is the mutable state. -/
def destroyLoopF (fuel : Nat) (colour : Nat) (b : Board) (pts : List IPoint) :
    Except PyErr Board :=
  match pts with
  | [] => .ok b
  | (i, j) :: rest =>
    if b.state i j = colour then
      match destroyF fuel b i j with
      | .error e => .error e
      | .ok b' => destroyLoopF fuel colour b' rest
    else destroyLoopF fuel colour b rest

end

/-- `destroy_group` run with the canonical fuel. -/
def destroy_group (b : Board) (x y : Int) : Except PyErr Board :=
  destroyF (fuelBound b) b x y

/-- The capture loop of `play_move`: for each neighbour currently holding
an opponent stone, destroy its group when the group has no liberties. -/
def playCaptures (b : Board) (opponent : Nat) (pts : List IPoint) :
    Except PyErr Board :=
  match pts with
  | [] => .ok b
  | (i, j) :: rest =>
    if b.state i j = opponent then
      match group_has_liberties b i j with
      | .error e => .error e
      | .ok true => playCaptures b opponent rest
      | .ok false =>
        match destroy_group b i j with
        | .error e => .error e
        | .ok b' => playCaptures b' opponent rest
    else playCaptures b opponent rest

/-- `Board.play_move(colour, x, y)`.  The off-board branch executes
`raise OffBoard`; `OffBoard` is undefined in the module, so the exception
actually raised there is `NameError`. -/
def play_move (b : Board) (colour : Nat) (x y : Int) : Except PyErr Board :=
  if colour = BLACK ∨ colour = WHITE then
    let opponent := if colour = WHITE then BLACK else WHITE
    if x < 1 ∨ x > (b.boardsize : Int) ∨ y < 1 ∨ y > (b.boardsize : Int) then
      .error .nameError
    else
      match playCaptures (b.set x y colour) opponent
          (adjacent_points x y b.boardsize) with
      | .error e => .error e
      | .ok b2 =>
        match group_has_liberties b2 x y with
        | .error e => .error e
        | .ok true => .ok b2
        | .ok false => destroy_group b2 x y
  else .error .assertFail

/-- `points_from_points_string(s, boardsize)`: decode `"aa"` or `"cd:jf"`
into the set of in-range points of the corner-normalized rectangle.  The
double loop with a conditional `add` is embedded as a filtered product of
integer intervals. -/
def points_from_points_string (s : String) (boardsize : Nat) : Finset IPoint :=
  let l := s.data
  if h : l.length < 2 then ∅
  else
    let left : Int := (l.get ⟨0, by omega⟩).toNat - 96
    let top : Int := (l.get ⟨1, by omega⟩).toNat - 96
    let right : Int := (l.get ⟨l.length - 2, by omega⟩).toNat - 96
    let bottom : Int := (l.get ⟨l.length - 1, by omega⟩).toNat - 96
    let lr := if left > right then (right, left) else (left, right)
    let tb := if top > bottom then (bottom, top) else (top, bottom)
    (Finset.Icc lr.1 lr.2 ×ˢ Finset.Icc tb.1 tb.2).filter
      (fun p => 1 ≤ p.1 ∧ p.1 ≤ (boardsize : Int) ∧ 1 ≤ p.2 ∧ p.2 ≤ (boardsize : Int))

/-- The inner loop of the add-stone handling in `Node.update`: every point
of the set is written the same cell value, so the iteration order of the
Python set is irrelevant and the loop denotes a simultaneous write. -/
def setAll (b : Board) (pts : Finset IPoint) (v : Nat) : Board :=
  { b with state := fun i j => if (i, j) ∈ pts then v else b.state i j }

/-- `string_from_point(x, y)`: convert coordinates into an SGF pair such
as `"pd"`, raising `ValueError` outside 1..26. -/
def string_from_point (x y : Int) : Except PyErr String :=
  if x < 1 ∨ x > 26 ∨ y < 1 ∨ y > 26 then .error .valueError
  else .ok (String.mk [Char.ofNat (x.toNat + 96), Char.ofNat (y.toNat + 96)])

/- ----------------------------------------------------------------------
   Node property dictionaries.  A Python dict preserves insertion order;
   it is embedded as an association list with unique keys: assignment
   replaces in place or appends at the end, `pop` removes the entry. -/

/-- The `properties` dictionary of a node. -/
abbrev Props := List (String × List String)

/-- Dictionary lookup (`properties[k]` / `k in properties`). -/
def propsGet (ps : Props) (k : String) : Option (List String) :=
  match ps with
  | [] => none
  | (k', v) :: rest => if k' = k then some v else propsGet rest k

/-- Dictionary assignment `properties[k] = v`: replace in place when the
key is present, otherwise append at the end (insertion order). -/
def propsSet (ps : Props) (k : String) (v : List String) : Props :=
  match ps with
  | [] => [(k, v)]
  | (k', v') :: rest =>
    if k' = k then (k, v) :: rest else (k', v') :: propsSet rest k v

/-- `properties.pop(k)` with the `KeyError` swallowed (total removal). -/
def propsPop (ps : Props) (k : String) : Props :=
  match ps with
  | [] => []
  | (k', v') :: rest => if k' = k then rest else (k', v') :: propsPop rest k

/-- The backslash-escaping of `safe_string`: each `\` or `]` is prefixed
with a backslash (left-to-right concatenation, written as recursion). -/
def safeChars : List Char → List Char
  | [] => []
  | ch :: rest =>
    (if ch = '\\' ∨ ch = ']' then ['\\', ch] else [ch]) ++ safeChars rest

/-- `safe_string(s)`. -/
def safe_string (s : String) : String := String.mk (safeChars s.data)

/-- `Node.safe_commit(key, value)`: store the escaped value as a singleton
list, or destroy the key when the escaped value is the empty string. -/
def safe_commit (ps : Props) (key value : String) : Props :=
  let s := safe_string value
  if s ≠ "" then propsSet ps key [s] else propsPop ps key

/-- `Node.add_value(key, value)`: create the key with an empty list when
absent, then append the value only if it is not already present. -/
def add_value (ps : Props) (key value : String) : Props :=
  let ps1 := if (propsGet ps key).isSome then ps else propsSet ps key []
  let cur := (propsGet ps1 key).getD []
  if value ∈ cur then ps1 else propsSet ps1 key (cur ++ [value])

/-- `Node.set_value(key, value)`. -/
def set_value (ps : Props) (key value : String) : Props :=
  propsSet ps key [value]

/- ----------------------------------------------------------------------
   `Node.update`: apply the node's properties to its board. -/

/-- One iteration of the mover loop of `Node.update` for a key in
`{"B": BLACK, "W": WHITE}` (iterated in that fixed insertion order).
`properties[mover][0]` raising `IndexError` on an empty value list sits
outside the `try`, so that error escapes as is.  Any exception raised by
the guarded block makes Python evaluate the handler tuple
`(IndexError, OffBoard)`, and the undefined name `OffBoard` turns the
handling itself into an escaping `NameError`; only when the guarded block
finishes cleanly is `moves_made` incremented. -/
def applyMover (key : String) (colour : Nat) (ps : Props) (b : Board)
    (m : Nat) : Except PyErr (Board × Nat) :=
  match propsGet ps key with
  | none => .ok (b, m)
  | some vs =>
    match vs with
    | [] => .error .indexError
    | movestring :: _ =>
      let tried : Except PyErr Board :=
        match movestring.data.get? 0, movestring.data.get? 1 with
        | some c0, some c1 =>
          play_move b colour ((c0.toNat : Int) - 96) ((c1.toNat : Int) - 96)
        | _, _ => .error .indexError
      match tried with
      | .ok b' => .ok (b', m + 1)
      | .error _ => .error .nameError

/-- One iteration of the adder loop of `Node.update` for a key in
`{"AB": BLACK, "AW": WHITE, "AE": EMPTY}` (that fixed order): every value
of the key is expanded to its in-range points and each point is force-set
to the cell value, with no capture or suicide check. -/
def applyAdder (key : String) (v : Nat) (ps : Props) (b : Board) : Board :=
  match propsGet ps key with
  | none => b
  | some vs =>
    vs.foldl (fun bb value => setAll bb (points_from_points_string value bb.boardsize) v) b

/-- `Node.update`, acting on the node's board and `moves_made` counter. -/
def update (ps : Props) (b : Board) (m : Nat) : Except PyErr (Board × Nat) :=
  match applyMover "B" BLACK ps b m with
  | .error e => .error e
  | .ok (b, m) =>
    match applyMover "W" WHITE ps b m with
    | .error e => .error e
    | .ok (b, m) =>
      let b := applyAdder "AB" BLACK ps b
      let b := applyAdder "AW" WHITE ps b
      let b := applyAdder "AE" EMPTY ps b
      .ok (b, m)

/- ----------------------------------------------------------------------
   The game tree. -/

/-- A parsed node: its property dictionary and its ordered children.  The
`parent` back-reference of the source is non-owning and not needed by the
tree walk's value semantics. -/
inductive Node where
  | mk (props : Props) (children : List Node)

/-- The property dictionary of a node. -/
def Node.props : Node → Props
  | .mk p _ => p

/-- The ordered children of a node. -/
def Node.children : Node → List Node
  | .mk _ c => c

/-- A node as annotated by the tree walk: its properties, the board after
this node's properties have been applied, the cumulative `moves_made`
counter, the `is_main_line` flag, and the annotated children. -/
inductive ATree where
  | mk (props : Props) (board : Board) (moves_made : Nat)
      (is_main_line : Bool) (children : List ATree)

/-- Properties of an annotated node. -/
def ATree.props : ATree → Props
  | .mk p _ _ _ _ => p

/-- Board snapshot of an annotated node. -/
def ATree.board : ATree → Board
  | .mk _ b _ _ _ => b

/-- Cumulative move count of an annotated node. -/
def ATree.moves_made : ATree → Nat
  | .mk _ _ m _ _ => m

/-- Main-line flag of an annotated node. -/
def ATree.is_main_line : ATree → Bool
  | .mk _ _ _ f _ => f

/-- Annotated children. -/
def ATree.children : ATree → List ATree
  | .mk _ _ _ _ c => c

/-- Descend along a path of child indexes. -/
def ATree.get : ATree → List Nat → Option ATree
  | t, [] => some t
  | t, i :: rest =>
    match t.children.get? i with
    | some c => c.get rest
    | none => none

mutual

/-- `Node.update_recursive` together with `copy_state_to_child`.  The
source iterates single-child chains and recurses on branch nodes; both
shapes are the same structural recursion on the tree.  Before descending
into a child, `copy_state_to_child` deep-copies the parent's post-update
board and move counter into the child (value passing here) and raises the
child's `is_main_line` flag exactly when the child is the first child of a
node whose own flag is set. -/
def update_recursive : Node → Board → Nat → Bool → Except PyErr ATree
  | .mk props children, b, m, main =>
    match update props b m with
    | .error e => .error e
    | .ok (b', m') =>
      match updateChildren children b' m' main with
      | .error e => .error e
      | .ok ts => .ok (.mk props b' m' main ts)

/-- Walk the children in order: the head is the first child and inherits
the parent's flag; every later child starts with a false flag. -/
def updateChildren : List Node → Board → Nat → Bool → Except PyErr (List ATree)
  | [], _, _, _ => .ok []
  | c :: rest, b, m, mainFirst =>
    match update_recursive c b m mainFirst with
    | .error e => .error e
    | .ok t =>
      match updateChildren rest b m false with
      | .error e => .error e
      | .ok ts => .ok (t :: ts)

end

/- ----------------------------------------------------------------------
   Serialization (`write_tree`). -/

/-- One node's property text: each key in insertion order, each of its
values bracketed (`outfile.write(key)` then `outfile.write("[{}]")` per
value). -/
def writeProps (ps : Props) : String :=
  match ps with
  | [] => ""
  | (k, vs) :: rest => k ++ String.join (vs.map (fun v => "[" ++ v ++ "]")) ++ writeProps rest

mutual

/-- The `while 1` loop of `write_tree`, with `acc` the text already sent
to `outfile`: emit `;` and the properties, then either close with `)` and
a newline (no children), reassign `node` and continue the loop (one
child), or emit every child as its own parenthesized subtree, break, and
close (two or more children). -/
def writeLoopA (acc : String) : Node → String
  | .mk props children =>
    let acc := acc ++ ";" ++ writeProps props
    match children with
    | [] => acc ++ ")\n"
    | [c] => writeLoopA acc c
    | c :: cs => writeKidsA acc (c :: cs) ++ ")\n"

/-- The `for child in node.children` loop of the branch case: each child
is written as a full parenthesized tree, in order. -/
def writeKidsA (acc : String) : List Node → String
  | [] => acc
  | c :: rest => writeKidsA (writeTreeA acc c) rest

/-- `write_tree(outfile, node)`: append `(`, then run the loop. -/
def writeTreeA (acc : String) (n : Node) : String :=
  writeLoopA (acc ++ "(") n

end

/-- The text `write_tree` writes for a tree (the file starts empty). -/
def write_tree (n : Node) : String := writeTreeA "" n

/- ----------------------------------------------------------------------
   `load`, from the point where a parser has returned the root node. -/

/-- Decimal digit accumulator for `py_int`; `none` until a first digit has
been seen, and failure on any non-digit character. -/
def pyNatAux : Option Nat → List Char → Option Nat
  | acc, [] => acc
  | acc, c :: rest =>
    if 48 ≤ c.toNat ∧ c.toNat ≤ 57 then
      match acc with
      | none => pyNatAux (some (c.toNat - 48)) rest
      | some n => pyNatAux (some (n * 10 + (c.toNat - 48))) rest
    else none

/-- Python `int(s)` on the strings this program stores and reads back: an
optional sign followed by decimal digits (the parsers only ever store
`str(int)`/`str(n)` forms, so surrounding whitespace and underscore
grouping accepted by Python never occur here). -/
def py_int (s : String) : Option Int :=
  match s.data with
  | '-' :: rest => (pyNatAux none rest).map (fun n => -(n : Int))
  | '+' :: rest => (pyNatAux none rest).map (fun n => (n : Int))
  | l => (pyNatAux none l).map (fun n => (n : Int))

/-- The tail of `load(filename)` after the format parser has produced
`root`: force `FF[4] GM[1] CA[UTF-8]`, resolve the board size (defaulting
to 19 and storing `SZ[19]` when absent), raise `BadBoardSize` when the
size is outside 1..19, then build the board and walk the tree with the
root marked as main line. -/
def load_post (root : Node) : Except PyErr ATree :=
  let ps := root.props
  let ps := set_value ps "FF" "4"
  let ps := set_value ps "GM" "1"
  let ps := set_value ps "CA" "UTF-8"
  match propsGet ps "SZ" with
  | some vs =>
    match vs with
    | [] => .error .indexError
    | v :: _ =>
      match py_int v with
      | none => .error .valueError
      | some size =>
        if size > 19 ∨ size < 1 then .error .badBoardSize
        else update_recursive (.mk ps root.children) (Board.init size.toNat) 0 true
  | none =>
    let ps := set_value ps "SZ" "19"
    update_recursive (.mk ps root.children) (Board.init 19) 0 true

/- ----------------------------------------------------------------------
   Specification-side notions: connected groups and liberties. -/

/-- A liberty: some orthogonal in-range neighbour of `p` is empty. -/
def libertyAt (b : Board) (p : IPoint) : Prop :=
  ∃ q ∈ adjacent_points p.1 p.2 b.boardsize, b.state q.1 q.2 = EMPTY

/-- `InGroup b colour p q`: `q` belongs to the connected same-colour group
reached from `p` (each step moves to an in-range orthogonal neighbour that
holds `colour`). -/
inductive InGroup (b : Board) (colour : Nat) (p : IPoint) : IPoint → Prop where
  | refl : InGroup b colour p p
  | step {q r : IPoint} : InGroup b colour p q →
      r ∈ adjacent_points q.1 q.2 b.boardsize → b.state r.1 r.2 = colour →
      InGroup b colour p r

/-- Reference liberty notion: some stone of the group containing `p` has
an adjacent empty point. -/
def groupHasLibertySpec (b : Board) (colour : Nat) (p : IPoint) : Prop :=
  ∃ q, InGroup b colour p q ∧ libertyAt b q

/-- A point of the visited set whose whole neighbourhood has been
examined: no empty neighbour, and every same-colour neighbour is in `S`. -/
def explored (b : Board) (colour : Nat) (S : Finset IPoint) (p : IPoint) : Prop :=
  ∀ q ∈ adjacent_points p.1 p.2 b.boardsize,
    b.state q.1 q.2 ≠ EMPTY ∧ (b.state q.1 q.2 = colour → q ∈ S)

/-- Number of occupied in-range cells; the fuel measure of the recursions. -/
def stones (b : Board) : Nat :=
  ((inRangeF b.boardsize).filter (fun p => b.state p.1 p.2 ≠ EMPTY)).card

/- ----------------------------------------------------------------------
   Further specification-side definitions used by the claims. -/

/-- Serializer rendering as the specification words it, per node: the key,
then each of its values individually bracketed. -/
def specPropText (ps : Props) : String :=
  String.join (ps.map (fun kv =>
    kv.1 ++ String.join (kv.2.map (fun v => "[" ++ v ++ "]"))))

mutual

/-- Serializer rendering as the specification words it: a tree is `(`,
a `;`-chain, then `)` and a newline. -/
def specRender : Node → String
  | n => "(" ++ specChain n ++ ")\n"

/-- The `;`-chain: each node contributes `;` and its property text; a node
with exactly one child continues the same chain, a node with two or more
children ends the chain after rendering each child as a full parenthesized
sub-tree, a node with no children ends the chain. -/
def specChain : Node → String
  | .mk props children =>
    ";" ++ specPropText props ++
      match children with
      | [] => ""
      | [c] => specChain c
      | cs => specKids cs

/-- The children of a branch node, each as a full sub-tree, in order. -/
def specKids : List Node → String
  | [] => ""
  | c :: cs => specRender c ++ specKids cs

end

/-- The property-dictionary invariant: every key present has a non-empty,
duplicate-free value list. -/
def goodProps (ps : Props) : Prop :=
  ∀ kv ∈ ps, kv.2 ≠ [] ∧ kv.2.Nodup

/-- The rectangle of points described by the specification for an
add-stone value: corners decoded from the first two and the last two
characters, normalized with `min`/`max` on each axis independently, and
clipped to the board. -/
def rectPointsSpec (s : String) (boardsize : Nat) : Finset IPoint :=
  let a : Int := (s.data.getD 0 'a').toNat - 96
  let b : Int := (s.data.getD 1 'a').toNat - 96
  let c : Int := (s.data.getD (s.data.length - 2) 'a').toNat - 96
  let d : Int := (s.data.getD (s.data.length - 1) 'a').toNat - 96
  (Finset.Icc (min a c) (max a c) ×ˢ Finset.Icc (min b d) (max b d)).filter
    (fun p => 1 ≤ p.1 ∧ p.1 ≤ (boardsize : Int) ∧ 1 ≤ p.2 ∧ p.2 ≤ (boardsize : Int))

/-- Conclusion of the liberty-search claim at a cell: the search returns,
and its answer is `true` exactly when the connected group of the cell has
a liberty in the reference flood-fill sense. -/
def GroupLibertiesConcl (b : Board) (x y : Int) : Prop :=
  ∃ r, group_has_liberties b x y = .ok r ∧
    (r = true ↔ groupHasLibertySpec b (b.state x y) (x, y))

/-- Conclusion of the destruction claim at a cell: the call returns a
board in which exactly the connected same-colour group of the cell has
been emptied. -/
def DestroyGroupConcl (b : Board) (x y : Int) : Prop :=
  ∃ b', destroy_group b x y = .ok b' ∧ b'.boardsize = b.boardsize ∧
    (∀ p : IPoint, InGroup b (b.state x y) (x, y) p → b'.state p.1 p.2 = EMPTY) ∧
    (∀ p : IPoint, ¬InGroup b (b.state x y) (x, y) p →
      b'.state p.1 p.2 = b.state p.1 p.2)

/-- Invariant of the capture loop, relating the running board `bb` to the
board `b1` the loop started from: each cell is unchanged, or it belonged
to a connected opponent group of `b1` without a `b1`-liberty whose every
stone has already been emptied. -/
def CapturedInv (b1 : Board) (opponent : Nat) (bb : Board) : Prop :=
  bb.boardsize = b1.boardsize ∧
  ∀ p : IPoint, bb.state p.1 p.2 = b1.state p.1 p.2 ∨
    (bb.state p.1 p.2 = EMPTY ∧ b1.state p.1 p.2 = opponent ∧
      ¬groupHasLibertySpec b1 opponent p ∧
      ∀ r, InGroup b1 opponent p r → bb.state r.1 r.2 = EMPTY)

/-- Conclusion of the move claim: the stone is placed first, the capture
phase then removes exactly the adjacent opponent groups without a liberty
(and nothing else), and the suicide decision is taken on the post-capture
board — a liberty of the placed group there (possibly created by a
capture) keeps the stone, and its absence removes exactly the placed
stone's group. -/
def PlayMoveConcl (b : Board) (colour : Nat) (x y : Int) : Prop :=
  ∃ b2, playCaptures (b.set x y colour) (if colour = WHITE then BLACK else WHITE)
      (adjacent_points x y b.boardsize) = .ok b2 ∧
    b2.boardsize = b.boardsize ∧
    (∀ u v : Int, b2.state u v = (b.set x y colour).state u v ∨
      (b2.state u v = EMPTY ∧
        (b.set x y colour).state u v = (if colour = WHITE then BLACK else WHITE))) ∧
    (∀ q ∈ adjacent_points x y b.boardsize,
      (b.set x y colour).state q.1 q.2 = (if colour = WHITE then BLACK else WHITE) →
      ¬groupHasLibertySpec (b.set x y colour)
        (if colour = WHITE then BLACK else WHITE) q →
      ∀ p : IPoint, InGroup (b.set x y colour)
        (if colour = WHITE then BLACK else WHITE) q p →
        b2.state p.1 p.2 = EMPTY) ∧
    b2.state x y = colour ∧
    (groupHasLibertySpec b2 colour (x, y) →
      play_move b colour x y = .ok b2 ∧ b2.state x y = colour) ∧
    (¬groupHasLibertySpec b2 colour (x, y) →
      ∃ b3, play_move b colour x y = .ok b3 ∧ b3.state x y = EMPTY ∧
        (∀ p : IPoint, InGroup b2 colour (x, y) p → b3.state p.1 p.2 = EMPTY) ∧
        (∀ p : IPoint, ¬InGroup b2 colour (x, y) p →
          b3.state p.1 p.2 = b2.state p.1 p.2))

/- ----------------------------------------------------------------------
   Basic lemmas. -/

theorem mem_inRangeF {n : Nat} {p : IPoint} :
    p ∈ inRangeF n ↔ 1 ≤ p.1 ∧ p.1 ≤ (n : Int) ∧ 1 ≤ p.2 ∧ p.2 ≤ (n : Int) := by
  cases p with
  | mk a c =>
    simp [inRangeF, Finset.mem_product, Finset.mem_Icc, and_assoc]

theorem card_inRangeF (n : Nat) : (inRangeF n).card = n * n := by
  simp [inRangeF, Finset.card_product, Int.card_Icc]

theorem mem_adjacent_points {x y : Int} {n : Nat} {q : IPoint} :
    q ∈ adjacent_points x y n ↔
      (q = (x - 1, y) ∨ q = (x + 1, y) ∨ q = (x, y - 1) ∨ q = (x, y + 1)) ∧
        (1 ≤ q.1 ∧ q.1 ≤ (n : Int) ∧ 1 ≤ q.2 ∧ q.2 ≤ (n : Int)) := by
  simp [adjacent_points, List.mem_filter, and_comm]

theorem adjacent_points_mem_inRangeF {x y : Int} {n : Nat} {q : IPoint}
    (h : q ∈ adjacent_points x y n) : q ∈ inRangeF n := by
  rw [mem_inRangeF]
  exact (mem_adjacent_points.1 h).2

@[simp] theorem Board.set_boardsize (b : Board) (x y : Int) (v : Nat) :
    (b.set x y v).boardsize = b.boardsize := rfl

theorem Board.set_state (b : Board) (x y : Int) (v : Nat) (i j : Int) :
    (b.set x y v).state i j = if i = x ∧ j = y then v else b.state i j := rfl

@[simp] theorem Board.set_state_same (b : Board) (x y : Int) (v : Nat) :
    (b.set x y v).state x y = v := by
  simp [Board.set_state]

theorem Board.set_state_other (b : Board) (x y : Int) (v : Nat) {i j : Int}
    (h : ¬(i = x ∧ j = y)) : (b.set x y v).state i j = b.state i j := by
  simp [Board.set_state, h]

theorem InGroup.trans {b : Board} {c : Nat} {p q r : IPoint}
    (h1 : InGroup b c p q) (h2 : InGroup b c q r) : InGroup b c p r := by
  induction h2 with
  | refl => exact h1
  | step _ hadj hcol ih => exact .step ih hadj hcol

/-- Same-colour connectivity transfers to any board with the same size
whose colour cells include the first board's colour cells. -/
theorem InGroup.transfer {b b' : Board} {c : Nat} {p q : IPoint}
    (hsize : b'.boardsize = b.boardsize)
    (hcol : ∀ u v : Int, b'.state u v = c → b.state u v = c)
    (h : InGroup b' c p q) : InGroup b c p q := by
  induction h with
  | refl => exact .refl
  | step _ hadj hcolr ih =>
    exact .step ih (by rwa [hsize] at hadj) (hcol _ _ hcolr)

theorem explored_mono {b : Board} {c : Nat} {S T : Finset IPoint} {p : IPoint}
    (hST : S ⊆ T) (h : explored b c S p) : explored b c T p := by
  intro q hq
  exact ⟨(h q hq).1, fun hc => hST ((h q hq).2 hc)⟩

/- ----------------------------------------------------------------------
   Invariants of the liberty search. -/

/-- The visited set only grows along the search. -/
theorem ghl_mono (fuel : Nat) :
    (∀ b c x y r c', ghlF fuel b c x y = .ok (r, c') → c ⊆ c') ∧
    (∀ b colour c l r c', ghlLoopF fuel b colour c l = .ok (r, c') → c ⊆ c') := by
  induction fuel with
  | zero =>
    refine ⟨fun b c x y r c' h => by simp [ghlF] at h, fun b colour c l r c' h => ?_⟩
    induction l generalizing c r c' with
    | nil =>
      simp only [ghlLoopF, Except.ok.injEq, Prod.mk.injEq] at h
      rw [← h.2]
    | cons p rest ih =>
      obtain ⟨i, j⟩ := p
      simp only [ghlLoopF] at h
      split at h
      · simp only [Except.ok.injEq, Prod.mk.injEq] at h
        rw [← h.2]
      · split at h
        · split at h
          · exact absurd h (by simp)
          · next heq => simp [ghlF] at heq
          · next heq => simp [ghlF] at heq
        · exact ih c r c' h
  | succ n ihn =>
    have hF : ∀ b c x y r c', ghlF (n + 1) b c x y = .ok (r, c') → c ⊆ c' := by
      intro b c x y r c' h
      simp only [ghlF] at h
      split at h
      · split at h
        · exact (Finset.subset_insert _ _).trans (ihn.2 _ _ _ _ _ _ h)
        · exact absurd h (by simp)
      · exact absurd h (by simp)
    refine ⟨hF, fun b colour c l r c' h => ?_⟩
    induction l generalizing c r c' with
    | nil =>
      simp only [ghlLoopF, Except.ok.injEq, Prod.mk.injEq] at h
      rw [← h.2]
    | cons p rest ih =>
      obtain ⟨i, j⟩ := p
      simp only [ghlLoopF] at h
      split at h
      · simp only [Except.ok.injEq, Prod.mk.injEq] at h
        rw [← h.2]
      · split at h
        · split at h
          · exact absurd h (by simp)
          · next c₁ heq =>
            simp only [Except.ok.injEq, Prod.mk.injEq] at h
            rw [← h.2]
            exact hF _ _ _ _ _ _ heq
          · next c₁ heq =>
            exact (hF _ _ _ _ _ _ heq).trans (ih c₁ r c' h)
        · exact ih c r c' h

theorem card_sdiff_mono {A c c' : Finset IPoint} (h : c ⊆ c') :
    (A \ c').card ≤ (A \ c).card :=
  Finset.card_le_card (Finset.sdiff_subset_sdiff (le_refl _) h)

theorem card_sdiff_insert_lt {A c : Finset IPoint} {p : IPoint}
    (hin : p ∈ A) (hnc : p ∉ c) : (A \ insert p c).card < (A \ c).card := by
  apply Finset.card_lt_card
  rw [Finset.ssubset_def]
  constructor
  · exact Finset.sdiff_subset_sdiff (le_refl _) (Finset.subset_insert _ _)
  · intro hcontra
    have h1 : p ∈ A \ c := Finset.mem_sdiff.2 ⟨hin, hnc⟩
    have h2 := hcontra h1
    rw [Finset.mem_sdiff] at h2
    exact h2.2 (Finset.mem_insert_self _ _)

/-- The loop half of fuel sufficiency, given it for `ghlF` at the same
fuel. -/
theorem ghl_ok_loop (fuel : Nat) (b : Board) (colour : Nat)
    (hF : ∀ c x y, (x, y) ∈ inRangeF b.boardsize → (x, y) ∉ c →
      (b.state x y = BLACK ∨ b.state x y = WHITE) →
      (inRangeF b.boardsize \ c).card ≤ fuel →
      ∃ r c', ghlF fuel b c x y = .ok (r, c')) :
    ∀ c l, (∀ p ∈ l, p ∈ inRangeF b.boardsize) →
      (colour = BLACK ∨ colour = WHITE) →
      (inRangeF b.boardsize \ c).card ≤ fuel →
      ∃ r c', ghlLoopF fuel b colour c l = .ok (r, c') := by
  intro c l
  induction l generalizing c with
  | nil => exact fun _ _ _ => ⟨false, c, by simp [ghlLoopF]⟩
  | cons p rest ih =>
    obtain ⟨i, j⟩ := p
    intro hl hcol hcard
    by_cases hE : b.state i j = EMPTY
    · exact ⟨true, c, by simp [ghlLoopF, hE]⟩
    · by_cases hG : b.state i j = colour ∧ (i, j) ∉ c
      · have hbw : b.state i j = BLACK ∨ b.state i j = WHITE := by
          rw [hG.1]; exact hcol
        obtain ⟨r, c₁, hr⟩ := hF c i j (hl _ (by simp)) hG.2 hbw hcard
        cases r with
        | true =>
          exact ⟨true, c₁, by simp only [ghlLoopF]; rw [if_neg hE, if_pos hG, hr]⟩
        | false =>
          have hsub := (ghl_mono fuel).1 _ _ _ _ _ _ hr
          obtain ⟨r₂, c₂, h₂⟩ := ih c₁ (fun p hp => hl p (by simp [hp]))
            hcol ((card_sdiff_mono hsub).trans hcard)
          refine ⟨r₂, c₂, ?_⟩
          simp only [ghlLoopF]
          rw [if_neg hE, if_pos hG, hr]
          exact h₂
      · obtain ⟨r₂, c₂, h₂⟩ := ih c (fun p hp => hl p (by simp [hp])) hcol hcard
        refine ⟨r₂, c₂, ?_⟩
        simp only [ghlLoopF]
        rw [if_neg hE, if_neg hG]
        exact h₂

/-- Fuel sufficiency: with fuel at least the number of unvisited in-range
points, the search always returns (the visited set prevents revisiting, so
it terminates on every group shape). -/
theorem ghl_ok (fuel : Nat) :
    ∀ b c x y, (x, y) ∈ inRangeF b.boardsize → (x, y) ∉ c →
      (b.state x y = BLACK ∨ b.state x y = WHITE) →
      (inRangeF b.boardsize \ c).card ≤ fuel →
      ∃ r c', ghlF fuel b c x y = .ok (r, c') := by
  induction fuel with
  | zero =>
    intro b c x y hin hnc _ hcard
    exfalso
    have h1 : (x, y) ∈ inRangeF b.boardsize \ c := Finset.mem_sdiff.2 ⟨hin, hnc⟩
    have h2 := Finset.card_pos.2 ⟨_, h1⟩
    omega
  | succ n ihn =>
    intro b c x y hin hnc hbw hcard
    have hin' := mem_inRangeF.1 hin
    have hcard' : (inRangeF b.boardsize \ insert (x, y) c).card ≤ n := by
      have := card_sdiff_insert_lt hin hnc
      omega
    obtain ⟨r, c', hr⟩ := ghl_ok_loop n b (b.state x y) (fun c x y => ihn b c x y)
      (insert (x, y) c) (adjacent_points x y b.boardsize)
      (fun p hp => adjacent_points_mem_inRangeF hp) hbw hcard'
    refine ⟨r, c', ?_⟩
    simp only [ghlF]
    rw [if_pos hin', if_pos hbw]
    exact hr

/-- Soundness: a `true` answer means some stone of the group reachable
from the start has an empty neighbour. -/
theorem ghl_sound (fuel : Nat) :
    (∀ b c x y c', ghlF fuel b c x y = .ok (true, c') →
      groupHasLibertySpec b (b.state x y) (x, y)) ∧
    (∀ b colour c l c' x y, ghlLoopF fuel b colour c l = .ok (true, c') →
      (∀ p ∈ l, p ∈ adjacent_points x y b.boardsize) → b.state x y = colour →
      groupHasLibertySpec b colour (x, y)) := by
  induction fuel with
  | zero =>
    refine ⟨fun b c x y c' h => by simp [ghlF] at h,
      fun b colour c l c' x y h hl hcolxy => ?_⟩
    induction l generalizing c with
    | nil => simp [ghlLoopF] at h
    | cons p rest ih =>
      obtain ⟨i, j⟩ := p
      simp only [ghlLoopF] at h
      split at h
      · next hE =>
        exact ⟨(x, y), .refl, (i, j), hl _ (by simp), hE⟩
      · split at h
        · split at h
          · exact absurd h (by simp)
          · next heq => simp [ghlF] at heq
          · next heq => simp [ghlF] at heq
        · exact ih c h (fun p hp => hl p (by simp [hp]))
  | succ n ihn =>
    have hF : ∀ b c x y c', ghlF (n + 1) b c x y = .ok (true, c') →
        groupHasLibertySpec b (b.state x y) (x, y) := by
      intro b c x y c' h
      simp only [ghlF] at h
      split at h
      · split at h
        · exact ihn.2 _ _ _ _ _ x y h (fun p hp => hp) rfl
        · exact absurd h (by simp)
      · exact absurd h (by simp)
    refine ⟨hF, fun b colour c l c' x y h hl hcolxy => ?_⟩
    induction l generalizing c with
    | nil => simp [ghlLoopF] at h
    | cons p rest ih =>
      obtain ⟨i, j⟩ := p
      simp only [ghlLoopF] at h
      split at h
      · next hE =>
        exact ⟨(x, y), .refl, (i, j), hl _ (by simp), hE⟩
      · next hE =>
        split at h
        · next hG =>
          split at h
          · exact absurd h (by simp)
          · next c₁ heq =>
            obtain ⟨q, hq, hlib⟩ := hF _ _ _ _ _ heq
            rw [hG.1] at hq
            have hstep : InGroup b colour (x, y) (i, j) :=
              .step .refl (hl _ (by simp)) hG.1
            exact ⟨q, hstep.trans hq, hlib⟩
          · next c₁ heq =>
            exact ih c₁ h (fun p hp => hl p (by simp [hp]))
        · exact ih c h (fun p hp => hl p (by simp [hp]))

/-- Completeness invariant: a `false` answer leaves behind a visited set
that is closed under same-colour adjacency and has no empty neighbours
anywhere. -/
theorem ghl_complete (fuel : Nat) :
    (∀ b c x y c', ghlF fuel b c x y = .ok (false, c') →
      insert (x, y) c ⊆ c' ∧
      ∀ p ∈ c', p ∉ c → explored b (b.state x y) c' p) ∧
    (∀ b colour c l c', ghlLoopF fuel b colour c l = .ok (false, c') →
      c ⊆ c' ∧ (∀ p ∈ c', p ∉ c → explored b colour c' p) ∧
      (∀ q ∈ l, b.state q.1 q.2 ≠ EMPTY ∧ (b.state q.1 q.2 = colour → q ∈ c'))) := by
  have loopStep : ∀ fuel,
      (∀ b c x y c', ghlF fuel b c x y = .ok (false, c') →
        insert (x, y) c ⊆ c' ∧
        ∀ p ∈ c', p ∉ c → explored b (b.state x y) c' p) →
      (∀ b colour c l c', ghlLoopF fuel b colour c l = .ok (false, c') →
        c ⊆ c' ∧ (∀ p ∈ c', p ∉ c → explored b colour c' p) ∧
        (∀ q ∈ l, b.state q.1 q.2 ≠ EMPTY ∧ (b.state q.1 q.2 = colour → q ∈ c'))) := by
    intro fuel hF b colour c l c' h
    induction l generalizing c with
    | nil =>
      simp only [ghlLoopF, Except.ok.injEq, Prod.mk.injEq] at h
      rw [← h.2]
      exact ⟨le_refl _, fun p hp hnp => absurd hp hnp, by simp⟩
    | cons p rest ih =>
      obtain ⟨i, j⟩ := p
      simp only [ghlLoopF] at h
      split at h
      · exact absurd h (by simp)
      · next hE =>
        split at h
        · next hG =>
          split at h
          · exact absurd h (by simp)
          · exact absurd h (by simp)
          · next c₁ heq =>
            obtain ⟨hsub₁, hexp₁⟩ := hF _ _ _ _ _ heq
            obtain ⟨hsub₂, hexp₂, hlst₂⟩ := ih c₁ h
            have hcc₁ : c ⊆ c₁ := (Finset.subset_insert _ _).trans hsub₁
            refine ⟨hcc₁.trans hsub₂, ?_, ?_⟩
            · intro p hp hnp
              by_cases hp₁ : p ∈ c₁
              · have := hexp₁ p hp₁ hnp
                rw [hG.1] at this
                exact explored_mono hsub₂ this
              · exact hexp₂ p hp hp₁
            · intro q hq
              rcases List.mem_cons.1 hq with hq | hq
              · subst hq
                exact ⟨hE, fun _ =>
                  hsub₂ (hsub₁ (Finset.mem_insert_self _ _))⟩
              · exact hlst₂ q hq
        · next hG =>
          obtain ⟨hsub, hexp, hlst⟩ := ih c h
          refine ⟨hsub, hexp, ?_⟩
          intro q hq
          rcases List.mem_cons.1 hq with hq | hq
          · subst hq
            refine ⟨hE, fun hcol => ?_⟩
            by_cases hc : (i, j) ∈ c
            · exact hsub hc
            · exact absurd ⟨hcol, hc⟩ hG
          · exact hlst q hq
  induction fuel with
  | zero =>
    have hF0 : ∀ b c x y c', ghlF 0 b c x y = .ok (false, c') →
        insert (x, y) c ⊆ c' ∧
        ∀ p ∈ c', p ∉ c → explored b (b.state x y) c' p :=
      fun b c x y c' h => by simp [ghlF] at h
    exact ⟨hF0, loopStep 0 hF0⟩
  | succ n ihn =>
    have hF : ∀ b c x y c', ghlF (n + 1) b c x y = .ok (false, c') →
        insert (x, y) c ⊆ c' ∧
        ∀ p ∈ c', p ∉ c → explored b (b.state x y) c' p := by
      intro b c x y c' h
      simp only [ghlF] at h
      split at h
      · split at h
        · obtain ⟨hsub, hexp, hlst⟩ := (loopStep n ihn.1) _ _ _ _ _ h
          refine ⟨hsub, ?_⟩
          intro p hp hnp
          by_cases hpxy : p = (x, y)
          · subst hpxy
            intro q hq
            exact hlst q hq
          · exact hexp p hp (by simp [Finset.mem_insert, hpxy, hnp])
        · exact absurd h (by simp)
      · exact absurd h (by simp)
    exact ⟨hF, loopStep (n + 1) hF⟩

/-- `group_has_liberties` on an occupied in-range cell terminates with an
answer that agrees with the reference flood-fill notion of liberty. -/
theorem group_has_liberties_iff (b : Board) (x y : Int)
    (hin : (x, y) ∈ inRangeF b.boardsize)
    (hbw : b.state x y = BLACK ∨ b.state x y = WHITE) :
    ∃ r, group_has_liberties b x y = .ok r ∧
      (r = true ↔ groupHasLibertySpec b (b.state x y) (x, y)) := by
  obtain ⟨r, c', hr⟩ := ghl_ok (fuelBound b) b ∅ x y hin (Finset.not_mem_empty _)
    hbw (by rw [Finset.sdiff_empty, card_inRangeF]; simp [fuelBound])
  refine ⟨r, ?_, ?_⟩
  · unfold group_has_liberties
    rw [if_pos (mem_inRangeF.1 hin), hr]
  · cases r with
    | true =>
      exact iff_of_true rfl ((ghl_sound (fuelBound b)).1 _ _ _ _ _ hr)
    | false =>
      apply iff_of_false (by simp)
      obtain ⟨hsub, hexp⟩ := (ghl_complete (fuelBound b)).1 _ _ _ _ _ hr
      have hexp' : ∀ p ∈ c', explored b (b.state x y) c' p :=
        fun p hp => hexp p hp (Finset.not_mem_empty _)
      have hmem : ∀ q, InGroup b (b.state x y) (x, y) q → q ∈ c' := by
        intro q hq
        induction hq with
        | refl => exact hsub (Finset.mem_insert_self _ _)
        | step _ hadj hcol ih => exact (hexp' _ ih _ hadj).2 hcol
      rintro ⟨q, hq, t, ht, hempty⟩
      exact (hexp' q (hmem q hq) t ht).1 hempty

/- ----------------------------------------------------------------------
   Invariants of group destruction. -/

/-- Destruction preserves the board size and only ever empties cells. -/
theorem destroy_emptied (fuel : Nat) :
    (∀ b x y b', destroyF fuel b x y = .ok b' →
      b'.boardsize = b.boardsize ∧
      ∀ u v : Int, b'.state u v = b.state u v ∨ b'.state u v = EMPTY) ∧
    (∀ colour b l b', destroyLoopF fuel colour b l = .ok b' →
      b'.boardsize = b.boardsize ∧
      ∀ u v : Int, b'.state u v = b.state u v ∨ b'.state u v = EMPTY) := by
  induction fuel with
  | zero =>
    refine ⟨fun b x y b' h => by simp [destroyF] at h, fun colour b l b' h => ?_⟩
    induction l generalizing b with
    | nil =>
      simp only [destroyLoopF, Except.ok.injEq] at h
      subst h
      exact ⟨rfl, fun u v => Or.inl rfl⟩
    | cons p rest ih =>
      obtain ⟨i, j⟩ := p
      simp only [destroyLoopF] at h
      split at h
      · split at h
        · exact absurd h (by simp)
        · next heq => simp [destroyF] at heq
      · exact ih b h
  | succ n ihn =>
    have hF : ∀ b x y b', destroyF (n + 1) b x y = .ok b' →
        b'.boardsize = b.boardsize ∧
        ∀ u v : Int, b'.state u v = b.state u v ∨ b'.state u v = EMPTY := by
      intro b x y b' h
      simp only [destroyF] at h
      split at h
      · split at h
        · obtain ⟨hsz, hst⟩ := ihn.2 _ _ _ _ h
          refine ⟨hsz.trans rfl, fun u v => ?_⟩
          rcases hst u v with h1 | h1
          · rw [h1, Board.set_state]
            split
            · exact Or.inr rfl
            · exact Or.inl rfl
          · exact Or.inr h1
        · exact absurd h (by simp)
      · exact absurd h (by simp)
    refine ⟨hF, fun colour b l b' h => ?_⟩
    induction l generalizing b with
    | nil =>
      simp only [destroyLoopF, Except.ok.injEq] at h
      subst h
      exact ⟨rfl, fun u v => Or.inl rfl⟩
    | cons p rest ih =>
      obtain ⟨i, j⟩ := p
      simp only [destroyLoopF] at h
      split at h
      · split at h
        · exact absurd h (by simp)
        · next bx heq =>
          obtain ⟨hsz₁, hst₁⟩ := hF _ _ _ _ heq
          obtain ⟨hsz₂, hst₂⟩ := ih bx h
          refine ⟨hsz₂.trans hsz₁, fun u v => ?_⟩
          rcases hst₂ u v with h2 | h2
          · rw [h2]
            exact hst₁ u v
          · exact Or.inr h2
      · exact ih b h

theorem stones_set_empty_lt {b : Board} {x y : Int}
    (hin : (x, y) ∈ inRangeF b.boardsize) (hne : b.state x y ≠ EMPTY) :
    stones (b.set x y EMPTY) < stones b := by
  have hfil : ((inRangeF (b.set x y EMPTY).boardsize).filter
      (fun p => (b.set x y EMPTY).state p.1 p.2 ≠ EMPTY)) =
      ((inRangeF b.boardsize).filter (fun p => b.state p.1 p.2 ≠ EMPTY)).erase (x, y) := by
    ext p
    obtain ⟨u, v⟩ := p
    simp only [Finset.mem_erase, Finset.mem_filter, Board.set_state,
      Board.set_boardsize, Prod.mk.injEq]
    by_cases hp : u = x ∧ v = y
    · simp [hp]
    · simp [hp, and_comm]
  unfold stones
  rw [hfil]
  exact Finset.card_erase_lt_of_mem (Finset.mem_filter.2 ⟨hin, hne⟩)

theorem stones_le_of_emptied {b b' : Board} (hsz : b'.boardsize = b.boardsize)
    (hst : ∀ u v : Int, b'.state u v = b.state u v ∨ b'.state u v = EMPTY) :
    stones b' ≤ stones b := by
  unfold stones
  rw [hsz]
  apply Finset.card_le_card
  intro p hp
  rw [Finset.mem_filter] at hp ⊢
  rcases hst p.1 p.2 with h | h
  · exact ⟨hp.1, by rw [← h]; exact hp.2⟩
  · exact absurd h hp.2

theorem stones_le (b : Board) : stones b ≤ b.boardsize * b.boardsize :=
  (Finset.card_filter_le _ _).trans (le_of_eq (card_inRangeF _))

theorem black_white_ne_empty {c : Nat} (h : c = BLACK ∨ c = WHITE) : c ≠ EMPTY := by
  rcases h with h | h <;> simp [h, BLACK, WHITE, EMPTY]

/-- Fuel sufficiency for destruction: each call empties its cell before
recursing, so the number of stones strictly decreases and fuel at least
the stone count suffices. -/
theorem destroy_ok (fuel : Nat) :
    ∀ b x y, (x, y) ∈ inRangeF b.boardsize →
      (b.state x y = BLACK ∨ b.state x y = WHITE) →
      stones b ≤ fuel → ∃ b', destroyF fuel b x y = .ok b' := by
  induction fuel with
  | zero =>
    intro b x y hin hbw hst
    exfalso
    have h1 : (x, y) ∈ (inRangeF b.boardsize).filter
        (fun p => b.state p.1 p.2 ≠ EMPTY) :=
      Finset.mem_filter.2 ⟨hin, black_white_ne_empty hbw⟩
    have h2 := Finset.card_pos.2 ⟨_, h1⟩
    unfold stones at hst
    omega
  | succ n ihn =>
    intro b x y hin hbw hst
    have hb1lt : stones (b.set x y EMPTY) < stones b :=
      stones_set_empty_lt hin (black_white_ne_empty hbw)
    have loopGo : ∀ l b2, b2.boardsize = b.boardsize →
        (∀ p ∈ l, p ∈ inRangeF b.boardsize) → stones b2 ≤ n →
        ∃ b', destroyLoopF n (b.state x y) b2 l = .ok b' := by
      intro l
      induction l with
      | nil => exact fun b2 _ _ _ => ⟨b2, by simp [destroyLoopF]⟩
      | cons p rest ih =>
        obtain ⟨i, j⟩ := p
        intro b2 hsz hl hst2
        by_cases hG : b2.state i j = b.state x y
        · obtain ⟨bx, hbx⟩ := ihn b2 i j (by rw [hsz]; exact hl _ (by simp))
            (by rw [hG]; exact hbw) hst2
          obtain ⟨hszx, hstx⟩ := (destroy_emptied n).1 _ _ _ _ hbx
          obtain ⟨b', hb'⟩ := ih bx (hszx.trans hsz) (fun p hp => hl p (by simp [hp]))
            ((stones_le_of_emptied hszx hstx).trans hst2)
          refine ⟨b', ?_⟩
          simp only [destroyLoopF]
          rw [if_pos hG, hbx]
          exact hb'
        · obtain ⟨b', hb'⟩ := ih b2 hsz (fun p hp => hl p (by simp [hp])) hst2
          refine ⟨b', ?_⟩
          simp only [destroyLoopF]
          rw [if_neg hG]
          exact hb'
    obtain ⟨b', hb'⟩ := loopGo (adjacent_points x y b.boardsize) (b.set x y EMPTY)
      rfl (fun p hp => adjacent_points_mem_inRangeF hp) (by omega)
    refine ⟨b', ?_⟩
    simp only [destroyF]
    rw [if_pos (mem_inRangeF.1 hin), if_pos hbw]
    exact hb'

/-- Every cell changed by destruction is emptied and belongs to the
connected same-colour group of the starting point (on the input board). -/
theorem destroy_changed (fuel : Nat) :
    (∀ b x y b', destroyF fuel b x y = .ok b' →
      ∀ u v : Int, b'.state u v ≠ b.state u v →
        b'.state u v = EMPTY ∧ InGroup b (b.state x y) (x, y) (u, v)) ∧
    (∀ colour b l b', destroyLoopF fuel colour b l = .ok b' →
      (colour = BLACK ∨ colour = WHITE) →
      ∀ u v : Int, b'.state u v ≠ b.state u v →
        b'.state u v = EMPTY ∧
        ∃ q ∈ l, b.state q.1 q.2 = colour ∧ InGroup b colour q (u, v)) := by
  have loopStep : ∀ fuel,
      (∀ b x y b', destroyF fuel b x y = .ok b' →
        ∀ u v : Int, b'.state u v ≠ b.state u v →
          b'.state u v = EMPTY ∧ InGroup b (b.state x y) (x, y) (u, v)) →
      (∀ colour b l b', destroyLoopF fuel colour b l = .ok b' →
        (colour = BLACK ∨ colour = WHITE) →
        ∀ u v : Int, b'.state u v ≠ b.state u v →
          b'.state u v = EMPTY ∧
          ∃ q ∈ l, b.state q.1 q.2 = colour ∧ InGroup b colour q (u, v)) := by
    intro fuel hF colour b l b' h hcol
    induction l generalizing b with
    | nil =>
      simp only [destroyLoopF, Except.ok.injEq] at h
      subst h
      exact fun u v hne => absurd rfl hne
    | cons p rest ih =>
      obtain ⟨i, j⟩ := p
      simp only [destroyLoopF] at h
      split at h
      · next hG =>
        split at h
        · exact absurd h (by simp)
        · next bx heq =>
          intro u v hne
          obtain ⟨hszx, hstx⟩ := (destroy_emptied fuel).1 _ _ _ _ heq
          by_cases hx : bx.state u v = b.state u v
          · have hne' : b'.state u v ≠ bx.state u v := by rw [hx]; exact hne
            obtain ⟨hemp, q, hq, hqcol, hqgrp⟩ := ih bx h u v hne'
            have hqcol' : b.state q.1 q.2 = colour := by
              rcases hstx q.1 q.2 with h1 | h1
              · rw [← h1]; exact hqcol
              · rw [h1] at hqcol
                exact absurd hqcol.symm (black_white_ne_empty hcol)
            refine ⟨hemp, q, by simp [hq], hqcol', ?_⟩
            refine hqgrp.transfer hszx ?_
            intro s t hst
            rcases hstx s t with h1 | h1
            · rw [← h1]; exact hst
            · rw [h1] at hst
              exact absurd hst.symm (black_white_ne_empty hcol)
          · obtain ⟨hemp, hgrp⟩ := hF _ _ _ _ heq u v hx
            obtain ⟨hszl, hstl⟩ := (destroy_emptied fuel).2 _ _ _ _ h
            have hemp' : b'.state u v = EMPTY := by
              rcases hstl u v with h1 | h1
              · rw [h1]; exact hemp
              · exact h1
            rw [hG] at hgrp
            exact ⟨hemp', (i, j), by simp, hG, hgrp⟩
      · next hG =>
        intro u v hne
        obtain ⟨hemp, q, hq, hqcol, hqgrp⟩ := ih b h u v hne
        exact ⟨hemp, q, by simp [hq], hqcol, hqgrp⟩
  induction fuel with
  | zero =>
    have hF0 : ∀ b x y b', destroyF 0 b x y = .ok b' →
        ∀ u v : Int, b'.state u v ≠ b.state u v →
          b'.state u v = EMPTY ∧ InGroup b (b.state x y) (x, y) (u, v) :=
      fun b x y b' h => by simp [destroyF] at h
    exact ⟨hF0, loopStep 0 hF0⟩
  | succ n ihn =>
    have hF : ∀ b x y b', destroyF (n + 1) b x y = .ok b' →
        ∀ u v : Int, b'.state u v ≠ b.state u v →
          b'.state u v = EMPTY ∧ InGroup b (b.state x y) (x, y) (u, v) := by
      intro b x y b' h
      simp only [destroyF] at h
      split at h
      · split at h
        · next hbw =>
          intro u v hne
          obtain ⟨hszl, hstl⟩ := (destroy_emptied n).2 _ _ _ _ h
          by_cases hc1 : (u, v) = (x, y)
          · rw [Prod.mk.injEq] at hc1
            have hemp : b'.state u v = EMPTY := by
              rcases hstl u v with h1 | h1
              · rw [h1, Board.set_state, if_pos hc1]
              · exact h1
            refine ⟨hemp, ?_⟩
            rw [hc1.1, hc1.2]
            exact .refl
          · have hb1 : (b.set x y EMPTY).state u v = b.state u v :=
              Board.set_state_other _ _ _ _ (by rw [Prod.mk.injEq] at hc1; exact hc1)
            have hne' : b'.state u v ≠ (b.set x y EMPTY).state u v := by
              rw [hb1]; exact hne
            obtain ⟨hemp, q, hq, hqcol, hqgrp⟩ :=
              (loopStep n ihn.1) _ _ _ _ h hbw u v hne'
            have hqne : ¬(q.1 = x ∧ q.2 = y) := by
              intro hqq
              rw [Board.set_state, if_pos hqq] at hqcol
              exact absurd hqcol.symm (black_white_ne_empty hbw)
            have hqcol' : b.state q.1 q.2 = b.state x y := by
              rw [Board.set_state, if_neg hqne] at hqcol
              exact hqcol
            have htr : InGroup b (b.state x y) q (u, v) := by
              refine InGroup.transfer ?_ ?_ hqgrp
              · rfl
              intro s t hst
              by_cases hss : s = x ∧ t = y
              · rw [Board.set_state, if_pos hss] at hst
                exact absurd hst.symm (black_white_ne_empty hbw)
              · rw [Board.set_state, if_neg hss] at hst
                exact hst
            have hstep : InGroup b (b.state x y) (x, y) q := by
              have : InGroup b (b.state x y) (x, y) (q.1, q.2) :=
                .step .refl hq hqcol'
              simpa using this
            exact ⟨hemp, hstep.trans htr⟩
        · exact absurd h (by simp)
      · exact absurd h (by simp)
    exact ⟨hF, loopStep (n + 1) hF⟩

/-- Closure: after a destruction call returns, the starting cell and every
cell it changed are empty, and none of their neighbours holds the colour
that was being destroyed. -/
theorem destroy_closure (fuel : Nat) :
    (∀ b x y b', destroyF fuel b x y = .ok b' →
      ∀ u v : Int, (b'.state u v ≠ b.state u v ∨ (u, v) = (x, y)) →
        b'.state u v = EMPTY ∧
        ∀ q ∈ adjacent_points u v b.boardsize, b'.state q.1 q.2 ≠ b.state x y) ∧
    (∀ colour b l b', destroyLoopF fuel colour b l = .ok b' →
      (colour = BLACK ∨ colour = WHITE) →
      (∀ u v : Int, b'.state u v ≠ b.state u v →
        b'.state u v = EMPTY ∧
        ∀ q ∈ adjacent_points u v b.boardsize, b'.state q.1 q.2 ≠ colour) ∧
      (∀ q ∈ l, b'.state q.1 q.2 ≠ colour)) := by
  have loopStep : ∀ fuel,
      (∀ b x y b', destroyF fuel b x y = .ok b' →
        ∀ u v : Int, (b'.state u v ≠ b.state u v ∨ (u, v) = (x, y)) →
          b'.state u v = EMPTY ∧
          ∀ q ∈ adjacent_points u v b.boardsize, b'.state q.1 q.2 ≠ b.state x y) →
      (∀ colour b l b', destroyLoopF fuel colour b l = .ok b' →
        (colour = BLACK ∨ colour = WHITE) →
        (∀ u v : Int, b'.state u v ≠ b.state u v →
          b'.state u v = EMPTY ∧
          ∀ q ∈ adjacent_points u v b.boardsize, b'.state q.1 q.2 ≠ colour) ∧
        (∀ q ∈ l, b'.state q.1 q.2 ≠ colour)) := by
    intro fuel hF colour b l b' h hcol
    induction l generalizing b with
    | nil =>
      simp only [destroyLoopF, Except.ok.injEq] at h
      subst h
      exact ⟨fun u v hne => absurd rfl hne, by simp⟩
    | cons p rest ih =>
      obtain ⟨i, j⟩ := p
      simp only [destroyLoopF] at h
      split at h
      · next hG =>
        split at h
        · exact absurd h (by simp)
        · next bx heq =>
          obtain ⟨hszx, hstx⟩ := (destroy_emptied fuel).1 _ _ _ _ heq
          obtain ⟨hszl, hstl⟩ := (destroy_emptied fuel).2 _ _ _ _ h
          obtain ⟨ih1, ih2⟩ := ih bx h
          have hpres : ∀ s t : Int, bx.state s t ≠ colour → b'.state s t ≠ colour := by
            intro s t hne
            rcases hstl s t with h1 | h1
            · rw [h1]; exact hne
            · rw [h1]
              exact fun hc => black_white_ne_empty hcol hc.symm
          refine ⟨?_, ?_⟩
          · intro u v hne
            by_cases hx : bx.state u v = b.state u v
            · have hne' : b'.state u v ≠ bx.state u v := by rw [hx]; exact hne
              obtain ⟨hemp, hnbr⟩ := ih1 u v hne'
              exact ⟨hemp, by rw [← hszx]; exact hnbr⟩
            · obtain ⟨hemp, hnbr⟩ := hF _ _ _ _ heq u v (Or.inl hx)
              rw [hG] at hnbr
              refine ⟨?_, ?_⟩
              · rcases hstl u v with h1 | h1
                · rw [h1]; exact hemp
                · exact h1
              · intro q hq
                exact hpres q.1 q.2 (hnbr q hq)
          · intro q hq
            rcases List.mem_cons.1 hq with hq | hq
            · subst hq
              obtain ⟨hemp, _⟩ := hF _ _ _ _ heq i j (Or.inr rfl)
              apply hpres
              rw [hemp]
              exact fun hc => black_white_ne_empty hcol hc.symm
            · exact ih2 q hq
      · next hG =>
        obtain ⟨ih1, ih2⟩ := ih b h
        refine ⟨ih1, ?_⟩
        intro q hq
        rcases List.mem_cons.1 hq with hq | hq
        · subst hq
          by_cases hch : b'.state i j = b.state i j
          · rw [hch]; exact hG
          · obtain ⟨hemp, _⟩ := ih1 i j hch
            rw [hemp]
            exact fun hc => black_white_ne_empty hcol hc.symm
        · exact ih2 q hq
  induction fuel with
  | zero =>
    have hF0 : ∀ b x y b', destroyF 0 b x y = .ok b' →
        ∀ u v : Int, (b'.state u v ≠ b.state u v ∨ (u, v) = (x, y)) →
          b'.state u v = EMPTY ∧
          ∀ q ∈ adjacent_points u v b.boardsize, b'.state q.1 q.2 ≠ b.state x y :=
      fun b x y b' h => by simp [destroyF] at h
    exact ⟨hF0, loopStep 0 hF0⟩
  | succ n ihn =>
    have hF : ∀ b x y b', destroyF (n + 1) b x y = .ok b' →
        ∀ u v : Int, (b'.state u v ≠ b.state u v ∨ (u, v) = (x, y)) →
          b'.state u v = EMPTY ∧
          ∀ q ∈ adjacent_points u v b.boardsize, b'.state q.1 q.2 ≠ b.state x y := by
      intro b x y b' h
      simp only [destroyF] at h
      split at h
      · split at h
        · next hbw =>
          obtain ⟨hszl, hstl⟩ := (destroy_emptied n).2 _ _ _ _ h
          obtain ⟨ih1, ih2⟩ := (loopStep n ihn.1) _ _ _ _ h hbw
          have hxyemp : b'.state x y = EMPTY := by
            rcases hstl x y with h1 | h1
            · rw [h1, Board.set_state]
              simp
            · exact h1
          intro u v huv
          rcases huv with hne | hxy
          · by_cases hc1 : (u, v) = (x, y)
            · rw [Prod.mk.injEq] at hc1
              rw [hc1.1, hc1.2]
              exact ⟨hxyemp, fun q hq => ih2 q hq⟩
            · have hb1 : (b.set x y EMPTY).state u v = b.state u v :=
                Board.set_state_other _ _ _ _ (by rw [Prod.mk.injEq] at hc1; exact hc1)
              have hne' : b'.state u v ≠ (b.set x y EMPTY).state u v := by
                rw [hb1]; exact hne
              exact ih1 u v hne'
          · rw [Prod.mk.injEq] at hxy
            rw [hxy.1, hxy.2]
            exact ⟨hxyemp, fun q hq => ih2 q hq⟩
        · exact absurd h (by simp)
      · exact absurd h (by simp)
    exact ⟨hF, loopStep (n + 1) hF⟩

/-- A group member is the start or holds the colour. -/
theorem InGroup.elim_state {b : Board} {c : Nat} {p q : IPoint}
    (h : InGroup b c p q) : q = p ∨ b.state q.1 q.2 = c := by
  cases h with
  | refl => exact Or.inl rfl
  | step _ _ hcol => exact Or.inr hcol

/-- Full postcondition of `destroy_group` on an occupied in-range cell:
it terminates, empties exactly the connected same-colour group of the
starting point, and leaves every other cell unchanged. -/
theorem destroy_group_spec (b : Board) (x y : Int)
    (hin : (x, y) ∈ inRangeF b.boardsize)
    (hbw : b.state x y = BLACK ∨ b.state x y = WHITE) :
    ∃ b', destroy_group b x y = .ok b' ∧
      b'.boardsize = b.boardsize ∧
      (∀ p : IPoint, InGroup b (b.state x y) (x, y) p → b'.state p.1 p.2 = EMPTY) ∧
      (∀ p : IPoint, ¬InGroup b (b.state x y) (x, y) p →
        b'.state p.1 p.2 = b.state p.1 p.2) := by
  obtain ⟨b', hb'⟩ := destroy_ok (fuelBound b) b x y hin hbw
    ((stones_le b).trans (by simp [fuelBound]))
  refine ⟨b', hb', ((destroy_emptied _).1 _ _ _ _ hb').1, ?_, ?_⟩
  · intro p hp
    induction hp with
    | refl => exact ((destroy_closure _).1 _ _ _ _ hb' x y (Or.inr rfl)).1
    | @step q r hgrp hadj hcol ih =>
      have hqco : b'.state q.1 q.2 ≠ b.state q.1 q.2 ∨ (q.1, q.2) = (x, y) := by
        rcases hgrp.elim_state with hq | hq
        · rw [hq]
          exact Or.inr rfl
        · refine Or.inl ?_
          rw [ih, hq]
          exact fun hc => black_white_ne_empty hbw hc.symm
      have hcl := (destroy_closure (fuelBound b)).1 _ _ _ _ hb' q.1 q.2 hqco
      have hner := hcl.2 r hadj
      by_cases hch : b'.state r.1 r.2 = b.state r.1 r.2
      · rw [hch] at hner
        exact absurd hcol hner
      · exact ((destroy_changed (fuelBound b)).1 _ _ _ _ hb' r.1 r.2 hch).1
  · intro p hnp
    by_contra hne
    have hch : b'.state p.1 p.2 ≠ b.state p.1 p.2 := hne
    have := ((destroy_changed (fuelBound b)).1 _ _ _ _ hb' p.1 p.2 hch).2
    rw [Prod.mk.eta] at this
    exact hnp this

/-- Adjacency is symmetric between in-range points. -/
theorem adjacent_points_symm {x y : Int} {n : Nat} {q : IPoint}
    (h : q ∈ adjacent_points x y n) (hin : (x, y) ∈ inRangeF n) :
    (x, y) ∈ adjacent_points q.1 q.2 n := by
  rw [mem_adjacent_points] at h ⊢
  rw [mem_inRangeF] at hin
  obtain ⟨hq4, hqr⟩ := h
  refine ⟨?_, hin⟩
  obtain ⟨qa, qb⟩ := q
  simp only [Prod.mk.injEq] at hq4 ⊢
  rcases hq4 with ⟨h1, h2⟩ | ⟨h1, h2⟩ | ⟨h1, h2⟩ | ⟨h1, h2⟩ <;> subst h1 <;> subst h2
  · exact Or.inr (Or.inl ⟨by omega, by omega⟩)
  · exact Or.inl ⟨by omega, by omega⟩
  · exact Or.inr (Or.inr (Or.inr ⟨by omega, by omega⟩))
  · exact Or.inr (Or.inr (Or.inl ⟨by omega, by omega⟩))

/-- Group members other than the seed are in range. -/
theorem InGroup.mem_range {b : Board} {c : Nat} {p q : IPoint}
    (h : InGroup b c p q) : q = p ∨ q ∈ inRangeF b.boardsize := by
  cases h with
  | refl => exact Or.inl rfl
  | step _ hadj _ => exact Or.inr (adjacent_points_mem_inRangeF hadj)

/-- Group reachability is symmetric when the seed is in range and holds
the colour. -/
theorem InGroup.symm_of {b : Board} {c : Nat} {q r : IPoint}
    (h : InGroup b c q r) (hqin : q ∈ inRangeF b.boardsize)
    (hqc : b.state q.1 q.2 = c) : InGroup b c r q := by
  induction h with
  | refl => exact .refl
  | @step p' r' hqp hadj hcol ih =>
    have hpin : p' ∈ inRangeF b.boardsize := by
      rcases hqp.mem_range with h1 | h1
      · rw [h1]; exact hqin
      · exact h1
    have hpc : b.state p'.1 p'.2 = c := by
      rcases hqp.elim_state with h1 | h1
      · rw [h1]; exact hqc
      · exact h1
    have hstep : InGroup b c r' p' :=
      .step .refl (adjacent_points_symm hadj hpin) hpc
    exact hstep.trans ih

/-- Points of one group see the same liberty answer. -/
theorem InGroup.spec_congr {b : Board} {c : Nat} {q p : IPoint}
    (h : InGroup b c q p) (hqin : q ∈ inRangeF b.boardsize)
    (hqc : b.state q.1 q.2 = c) :
    (groupHasLibertySpec b c p ↔ groupHasLibertySpec b c q) := by
  constructor
  · rintro ⟨t, ht, hlib⟩
    exact ⟨t, h.trans ht, hlib⟩
  · rintro ⟨t, ht, hlib⟩
    exact ⟨t, (h.symm_of hqin hqc).trans ht, hlib⟩

/-- The invariant holds initially. -/
theorem capturedInv_refl (b1 : Board) (opponent : Nat) :
    CapturedInv b1 opponent b1 :=
  ⟨rfl, fun _ => Or.inl rfl⟩

/-- Under the invariant, a surviving opponent stone has the same group and
the same liberty answer in the running board as in the starting board. -/
theorem capturedInv_group_eq {b1 : Board} {opponent : Nat} {bb : Board}
    (hop : opponent = BLACK ∨ opponent = WHITE)
    (hInv : CapturedInv b1 opponent bb) {q : IPoint}
    (hqin : q ∈ inRangeF b1.boardsize)
    (hqbb : bb.state q.1 q.2 = opponent) :
    (∀ p, InGroup bb opponent q p ↔ InGroup b1 opponent q p) ∧
    (groupHasLibertySpec bb opponent q ↔ groupHasLibertySpec b1 opponent q) := by
  obtain ⟨hsz, hst⟩ := hInv
  have hq1 : b1.state q.1 q.2 = opponent := by
    rcases hst q with h1 | h1
    · rw [← h1]; exact hqbb
    · rw [h1.1] at hqbb
      exact absurd hqbb.symm (black_white_ne_empty hop)
  have hcells : ∀ u v : Int, bb.state u v = opponent → b1.state u v = opponent := by
    intro u v huv
    rcases hst (u, v) with h1 | h1
    · rw [← h1]; exact huv
    · rw [h1.1] at huv
      exact absurd huv.symm (black_white_ne_empty hop)
  have hto : ∀ p, InGroup bb opponent q p → InGroup b1 opponent q p :=
    fun p hp => hp.transfer hsz hcells
  have hfrom : ∀ p, InGroup b1 opponent q p → InGroup bb opponent q p := by
    intro p hp
    induction hp with
    | refl => exact .refl
    | @step p' r hp' hadj hcol ih =>
      refine .step ih (by rw [hsz]; exact hadj) ?_
      rcases hst r with h1 | h1
      · rw [h1]; exact hcol
      · exfalso
        have hqr : InGroup b1 opponent q r := .step hp' hadj hcol
        have hrq := hqr.symm_of hqin hq1
        have hqE := h1.2.2.2 q hrq
        rw [hqE] at hqbb
        exact black_white_ne_empty hop hqbb.symm
  refine ⟨fun p => ⟨hto p, hfrom p⟩, ?_, ?_⟩
  · rintro ⟨t, ht, s, hs, hsE⟩
    refine ⟨t, hto t ht, s, by rw [← hsz]; exact hs, ?_⟩
    rcases hst s with h1 | h1
    · rw [← h1]; exact hsE
    · exfalso
      have ht1 : b1.state t.1 t.2 = opponent := by
        rcases (hto t ht).elim_state with h2 | h2
        · rw [h2]; exact hq1
        · exact h2
      have hqs : InGroup b1 opponent q s :=
        .step (hto t ht) (by rw [← hsz]; exact hs) h1.2.1
      have hsq := hqs.symm_of hqin hq1
      have hqE := h1.2.2.2 q hsq
      rw [hqE] at hqbb
      exact black_white_ne_empty hop hqbb.symm
  · rintro ⟨t, ht, s, hs, hsE⟩
    refine ⟨t, hfrom t ht, s, by rw [hsz]; exact hs, ?_⟩
    rcases hst s with h1 | h1
    · rw [h1]; exact hsE
    · exact h1.1

/-- The invariant is preserved by destroying the group of a surviving
opponent stone that has no liberty in the starting board, and afterwards
that whole starting-board group is empty. -/
theorem capturedInv_step {b1 : Board} {opponent : Nat} {bb bx : Board}
    {q : IPoint} (hop : opponent = BLACK ∨ opponent = WHITE)
    (hInv : CapturedInv b1 opponent bb)
    (hqin : q ∈ inRangeF b1.boardsize)
    (hqbb : bb.state q.1 q.2 = opponent)
    (hnlib1 : ¬groupHasLibertySpec b1 opponent q)
    (hszx : bx.boardsize = bb.boardsize)
    (hgx : ∀ p : IPoint, InGroup bb opponent q p → bx.state p.1 p.2 = EMPTY)
    (hfx : ∀ p : IPoint, ¬InGroup bb opponent q p →
      bx.state p.1 p.2 = bb.state p.1 p.2) :
    CapturedInv b1 opponent bx ∧
    (∀ p, InGroup b1 opponent q p → bx.state p.1 p.2 = EMPTY) := by
  obtain ⟨hgeq, hleq⟩ := capturedInv_group_eq hop hInv hqin hqbb
  obtain ⟨hsz, hst⟩ := hInv
  have hq1 : b1.state q.1 q.2 = opponent := by
    rcases hst q with h1 | h1
    · rw [← h1]; exact hqbb
    · rw [h1.1] at hqbb
      exact absurd hqbb.symm (black_white_ne_empty hop)
  have hgroup_empty : ∀ p, InGroup b1 opponent q p → bx.state p.1 p.2 = EMPTY :=
    fun p hp => hgx p ((hgeq p).2 hp)
  refine ⟨⟨hszx.trans hsz, ?_⟩, hgroup_empty⟩
  intro p
  by_cases hpg : InGroup b1 opponent q p
  · refine Or.inr ⟨hgroup_empty p hpg, ?_, ?_, ?_⟩
    · rcases hpg.elim_state with h1 | h1
      · rw [h1]; exact hq1
      · exact h1
    · intro hs
      exact hnlib1 ((hpg.spec_congr hqin hq1).1 hs)
    · intro r hr
      exact hgroup_empty r (hpg.trans hr)
  · have hfxp := hfx p (fun hc => hpg ((hgeq p).1 hc))
    rcases hst p with h1 | h1
    · exact Or.inl (hfxp.trans h1)
    · refine Or.inr ⟨hfxp.trans h1.1, h1.2.1, h1.2.2.1, ?_⟩
      intro r hr
      have hbbr := h1.2.2.2 r hr
      by_cases hrg : InGroup bb opponent q r
      · exact hgx r hrg
      · exact (hfx r hrg).trans hbbr

/-- The capture loop over in-range points succeeds, keeps the board size,
and only removes opponent stones. -/
theorem playCaptures_spec (opponent : Nat)
    (hop : opponent = BLACK ∨ opponent = WHITE) :
    ∀ l b, (∀ p ∈ l, p ∈ inRangeF b.boardsize) →
      ∃ b2, playCaptures b opponent l = .ok b2 ∧
        b2.boardsize = b.boardsize ∧
        (∀ u v : Int, b2.state u v = b.state u v ∨
          (b2.state u v = EMPTY ∧ b.state u v = opponent)) := by
  intro l
  induction l with
  | nil => exact fun b _ => ⟨b, by simp [playCaptures], rfl, fun u v => Or.inl rfl⟩
  | cons p rest ih =>
    obtain ⟨i, j⟩ := p
    intro b hl
    by_cases hG : b.state i j = opponent
    · have hbw : b.state i j = BLACK ∨ b.state i j = WHITE := by rw [hG]; exact hop
      obtain ⟨r, hr, _⟩ := group_has_liberties_iff b i j (hl _ (by simp)) hbw
      cases r with
      | true =>
        obtain ⟨b2, h2, hsz, hst⟩ := ih b (fun p hp => hl p (by simp [hp]))
        refine ⟨b2, ?_, hsz, hst⟩
        simp only [playCaptures]
        rw [if_pos hG, hr]
        exact h2
      | false =>
        obtain ⟨bx, hbx, hszx, hgx, hfx⟩ :=
          destroy_group_spec b i j (hl _ (by simp)) hbw
        obtain ⟨b2, h2, hsz, hst⟩ := ih bx
          (fun p hp => by rw [hszx]; exact hl p (by simp [hp]))
        refine ⟨b2, ?_, hsz.trans hszx, ?_⟩
        · simp only [playCaptures]
          rw [if_pos hG, hr, hbx]
          exact h2
        · intro u v
          rcases hst u v with h1 | h1
          · rw [h1]
            by_cases hgrp : InGroup b (b.state i j) (i, j) (u, v)
            · refine Or.inr ⟨hgx (u, v) hgrp, ?_⟩
              rcases hgrp.elim_state with hq | hq
              · rw [Prod.mk.injEq] at hq
                rw [hq.1, hq.2, hG]
              · rw [hq, hG]
            · exact Or.inl (hfx (u, v) hgrp)
          · obtain ⟨hemp, hbxuv⟩ := h1
            by_cases hgrp : InGroup b (b.state i j) (i, j) (u, v)
            · refine Or.inr ⟨hemp, ?_⟩
              rcases hgrp.elim_state with hq | hq
              · rw [Prod.mk.injEq] at hq
                rw [hq.1, hq.2, hG]
              · rw [hq, hG]
            · rw [hfx (u, v) hgrp] at hbxuv
              exact Or.inr ⟨hemp, hbxuv⟩
    · obtain ⟨b2, h2, hsz, hst⟩ := ih b (fun p hp => hl p (by simp [hp]))
      refine ⟨b2, ?_, hsz, hst⟩
      simp only [playCaptures]
      rw [if_neg hG]
      exact h2

/-- Cells already empty stay empty through the capture loop. -/
theorem playCaptures_emptied (opponent : Nat)
    (hop : opponent = BLACK ∨ opponent = WHITE)
    {l : List IPoint} {bb b2 : Board}
    (hl : ∀ p ∈ l, p ∈ inRangeF bb.boardsize)
    (h : playCaptures bb opponent l = .ok b2) :
    ∀ u v : Int, bb.state u v = EMPTY → b2.state u v = EMPTY := by
  obtain ⟨b2', h2', _, hst⟩ := playCaptures_spec opponent hop l bb hl
  rw [h] at h2'
  injection h2' with he
  subst he
  intro u v huv
  rcases hst u v with h1 | h1
  · rw [h1]; exact huv
  · exact h1.1

/-- Full behaviour of the capture loop: starting from `b1` it maintains
`CapturedInv`, and every listed point that holds an opponent stone of a
`b1`-group without a `b1`-liberty has its entire group emptied. -/
theorem playCaptures_invariant (b1 : Board) (opponent : Nat)
    (hop : opponent = BLACK ∨ opponent = WHITE) :
    ∀ (l : List IPoint) (bb b2 : Board), CapturedInv b1 opponent bb →
      (∀ p ∈ l, p ∈ inRangeF b1.boardsize) →
      playCaptures bb opponent l = .ok b2 →
      CapturedInv b1 opponent b2 ∧
      (∀ q ∈ l, b1.state q.1 q.2 = opponent →
        ¬groupHasLibertySpec b1 opponent q →
        ∀ p, InGroup b1 opponent q p → b2.state p.1 p.2 = EMPTY) := by
  intro l
  induction l with
  | nil =>
    intro bb b2 hInv _ h
    simp only [playCaptures, Except.ok.injEq] at h
    subst h
    exact ⟨hInv, by simp⟩
  | cons pq rest ih =>
    obtain ⟨i, j⟩ := pq
    intro bb b2 hInv hl h
    have hijin : (i, j) ∈ inRangeF b1.boardsize := hl _ (by simp)
    have hsz := hInv.1
    simp only [playCaptures] at h
    by_cases hG : bb.state i j = opponent
    · rw [if_pos hG] at h
      obtain ⟨r, hr, hiff⟩ := group_has_liberties_iff bb i j
        (by rw [hsz]; exact hijin) (by rw [hG]; exact hop)
      rw [hr] at h
      rw [hG] at hiff
      obtain ⟨hgeq, hleq⟩ := capturedInv_group_eq hop hInv hijin hG
      cases r with
      | true =>
        dsimp only at h
        obtain ⟨hInv2, hrest⟩ := ih bb b2 hInv (fun p hp => hl p (by simp [hp])) h
        refine ⟨hInv2, ?_⟩
        intro q hq hq1 hqn p hp
        rcases List.mem_cons.1 hq with hq | hq
        · exfalso
          subst hq
          exact hqn (hleq.1 (hiff.1 rfl))
        · exact hrest q hq hq1 hqn p hp
      | false =>
        dsimp only at h
        obtain ⟨bx, hbx, hszx, hgx, hfx⟩ := destroy_group_spec bb i j
          (by rw [hsz]; exact hijin) (by rw [hG]; exact hop)
        rw [hbx] at h
        dsimp only at h
        rw [hG] at hgx hfx
        have hnlib1 : ¬groupHasLibertySpec b1 opponent (i, j) := by
          intro hs
          have := hiff.2 (hleq.2 hs)
          simp at this
        obtain ⟨hInvx, hgempty⟩ :=
          capturedInv_step hop hInv hijin hG hnlib1 hszx hgx hfx
        obtain ⟨hInv2, hrest⟩ := ih bx b2 hInvx (fun p hp => hl p (by simp [hp])) h
        refine ⟨hInv2, ?_⟩
        intro q hq hq1 hqn p hp
        rcases List.mem_cons.1 hq with hq | hq
        · subst hq
          exact playCaptures_emptied opponent hop
            (fun p hp => by rw [hszx, hsz]; exact hl p (by simp [hp])) h
            p.1 p.2 (hgempty p hp)
        · exact hrest q hq hq1 hqn p hp
    · rw [if_neg hG] at h
      obtain ⟨hInv2, hrest⟩ := ih bb b2 hInv (fun p hp => hl p (by simp [hp])) h
      refine ⟨hInv2, ?_⟩
      intro q hq hq1 hqn p hp
      rcases List.mem_cons.1 hq with hq | hq
      · subst hq
        obtain ⟨hszI, hstI⟩ := hInv
        rcases hstI (i, j) with h1 | h1
        · rw [h1] at hG
          exact absurd hq1 hG
        · exact playCaptures_emptied opponent hop
            (fun p hp => by rw [hszI]; exact hl p (by simp [hp])) h
            p.1 p.2 (h1.2.2.2 p hp)
      · exact hrest q hq hq1 hqn p hp

/-- `play_move` on an in-range move: place, capture, then suicide check on
the post-capture board. -/
theorem play_move_spec (b : Board) (colour : Nat) (x y : Int)
    (hcol : colour = BLACK ∨ colour = WHITE)
    (hx : 1 ≤ x ∧ x ≤ (b.boardsize : Int))
    (hy : 1 ≤ y ∧ y ≤ (b.boardsize : Int)) :
    PlayMoveConcl b colour x y := by
  set opponent := if colour = WHITE then BLACK else WHITE with hopdef
  have hop : opponent = BLACK ∨ opponent = WHITE := by
    rw [hopdef]
    split
    · exact Or.inl rfl
    · exact Or.inr rfl
  have hopne : opponent ≠ colour := by
    rcases hcol with h | h <;> rw [hopdef, h] <;> simp [BLACK, WHITE]
  set b1 := b.set x y colour with hb1def
  have hsz1 : b1.boardsize = b.boardsize := rfl
  obtain ⟨b2, h2, hsz2, hst2⟩ := playCaptures_spec opponent hop
    (adjacent_points x y b.boardsize) b1
    (fun p hp => by rw [hsz1]; exact adjacent_points_mem_inRangeF hp)
  have hb1xy : b1.state x y = colour := Board.set_state_same _ _ _ _
  have hb2xy : b2.state x y = colour := by
    rcases hst2 x y with h | h
    · rw [h, hb1xy]
    · rw [hb1xy] at h
      exact absurd h.2.symm hopne
  have hb2bw : b2.state x y = BLACK ∨ b2.state x y = WHITE := by
    rw [hb2xy]; exact hcol
  have hin2 : (x, y) ∈ inRangeF b2.boardsize := by
    rw [hsz2]
    exact mem_inRangeF.2 ⟨hx.1, hx.2, hy.1, hy.2⟩
  obtain ⟨r, hr, hiff⟩ := group_has_liberties_iff b2 x y hin2 hb2bw
  rw [hb2xy] at hiff
  have hpm : play_move b colour x y =
      match group_has_liberties b2 x y with
      | .error e => .error e
      | .ok true => .ok b2
      | .ok false => destroy_group b2 x y := by
    simp only [play_move]
    rw [if_pos hcol, if_neg ?hoff]
    case hoff =>
      simp only [not_or, not_lt]
      exact ⟨hx.1, by omega, hy.1, by omega⟩
    rw [← hopdef, ← hb1def, h2]
  obtain ⟨hInv2, hcomplete⟩ := playCaptures_invariant b1 opponent hop
    (adjacent_points x y b.boardsize) b1 b2 (capturedInv_refl b1 opponent)
    (fun p hp => adjacent_points_mem_inRangeF hp) h2
  refine ⟨b2, h2, hsz2, hst2, hcomplete, hb2xy, ?_, ?_⟩
  · intro hspec
    refine ⟨?_, hb2xy⟩
    rw [hpm, hr]
    have : r = true := hiff.2 hspec
    rw [this]
  · intro hnspec
    have hrf : r = false := by
      cases r with
      | true => exact absurd (hiff.1 rfl) hnspec
      | false => rfl
    obtain ⟨b3, hb3, hsz3, hg3, hf3⟩ := destroy_group_spec b2 x y hin2 hb2bw
    rw [hb2xy] at hg3 hf3
    refine ⟨b3, ?_, ?_, hg3, hf3⟩
    · rw [hpm, hr, hrf]
      exact hb3
    · exact hg3 (x, y) .refl

/- ----------------------------------------------------------------------
   Board-size preservation. -/

theorem playCaptures_boardsize (opponent : Nat) :
    ∀ l b b2, playCaptures b opponent l = .ok b2 → b2.boardsize = b.boardsize := by
  intro l
  induction l with
  | nil =>
    intro b b2 h
    simp only [playCaptures, Except.ok.injEq] at h
    rw [← h]
  | cons p rest ih =>
    obtain ⟨i, j⟩ := p
    intro b b2 h
    simp only [playCaptures] at h
    split at h
    · split at h
      · exact absurd h (by simp)
      · exact ih b b2 h
      · split at h
        · exact absurd h (by simp)
        · next bx heq =>
          exact (ih bx b2 h).trans ((destroy_emptied _).1 _ _ _ _ heq).1
    · exact ih b b2 h

theorem play_move_boardsize {b : Board} {colour : Nat} {x y : Int} {b' : Board}
    (h : play_move b colour x y = .ok b') : b'.boardsize = b.boardsize := by
  simp only [play_move] at h
  split at h
  · split at h
    · exact absurd h (by simp)
    · split at h
      · exact absurd h (by simp)
      · next b2 heq =>
        have hsz2 : b2.boardsize = b.boardsize :=
          playCaptures_boardsize _ _ _ _ heq |>.trans rfl
        split at h
        · exact absurd h (by simp)
        · simp only [Except.ok.injEq] at h
          rw [← h]
          exact hsz2
        · exact ((destroy_emptied _).1 _ _ _ _ h).1.trans hsz2
  · exact absurd h (by simp)

@[simp] theorem setAll_boardsize (b : Board) (pts : Finset IPoint) (v : Nat) :
    (setAll b pts v).boardsize = b.boardsize := rfl

theorem foldl_setAll_boardsize (v : Nat) :
    ∀ (vs : List String) (b : Board),
      (List.foldl
        (fun bb value => setAll bb (points_from_points_string value bb.boardsize) v)
        b vs).boardsize = b.boardsize := by
  intro vs
  induction vs with
  | nil => exact fun b => rfl
  | cons a rest ih => exact fun b => ih _

theorem applyAdder_boardsize (key : String) (v : Nat) (ps : Props) (b : Board) :
    (applyAdder key v ps b).boardsize = b.boardsize := by
  unfold applyAdder
  split
  · rfl
  · exact foldl_setAll_boardsize v _ b

theorem applyMover_boardsize {key : String} {colour : Nat} {ps : Props}
    {b : Board} {m : Nat} {b' : Board} {m' : Nat}
    (h : applyMover key colour ps b m = .ok (b', m')) :
    b'.boardsize = b.boardsize := by
  simp only [applyMover] at h
  split at h
  · simp only [Except.ok.injEq, Prod.mk.injEq] at h
    rw [← h.1]
  · split at h
    · exact absurd h (by simp)
    · split at h
      · next heq =>
        split at heq
        · simp only [Except.ok.injEq, Prod.mk.injEq] at h
          rw [← h.1]
          exact play_move_boardsize heq
        · exact absurd heq (by simp)
      · exact absurd h (by simp)

theorem update_boardsize {ps : Props} {b : Board} {m : Nat} {b' : Board}
    {m' : Nat} (h : update ps b m = .ok (b', m')) :
    b'.boardsize = b.boardsize := by
  simp only [update] at h
  cases heqB : applyMover "B" BLACK ps b m with
  | error e => rw [heqB] at h; exact absurd h (by simp)
  | ok bm =>
    obtain ⟨bB, mB⟩ := bm
    rw [heqB] at h
    dsimp only at h
    cases heqW : applyMover "W" WHITE ps bB mB with
    | error e => rw [heqW] at h; exact absurd h (by simp)
    | ok bm2 =>
      obtain ⟨bW, mW⟩ := bm2
      rw [heqW] at h
      dsimp only at h
      simp only [Except.ok.injEq, Prod.mk.injEq] at h
      rw [← h.1, applyAdder_boardsize, applyAdder_boardsize, applyAdder_boardsize]
      exact (applyMover_boardsize heqW).trans (applyMover_boardsize heqB)

/- ----------------------------------------------------------------------
   Property-dictionary lemmas. -/

theorem propsGet_propsSet_same (ps : Props) (k : String) (v : List String) :
    propsGet (propsSet ps k v) k = some v := by
  induction ps with
  | nil => simp [propsSet, propsGet]
  | cons kv rest ih =>
    obtain ⟨k', v'⟩ := kv
    by_cases h : k' = k
    · simp [propsSet, propsGet, h]
    · simp [propsSet, propsGet, h, ih]

theorem propsGet_propsSet_other (ps : Props) {k k' : String} (v : List String)
    (hne : k' ≠ k) : propsGet (propsSet ps k v) k' = propsGet ps k' := by
  have hne' : ¬k = k' := fun h => hne h.symm
  induction ps with
  | nil => simp [propsSet, propsGet, hne']
  | cons kv rest ih =>
    obtain ⟨k'', v''⟩ := kv
    by_cases h : k'' = k
    · subst h
      simp [propsSet, propsGet, hne']
    · by_cases h2 : k'' = k'
      · simp [propsSet, propsGet, h, h2, hne]
      · simp [propsSet, propsGet, h, h2, ih]

theorem propsSet_propsSet (ps : Props) (k : String) (a v : List String) :
    propsSet (propsSet ps k a) k v = propsSet ps k v := by
  induction ps with
  | nil => simp [propsSet]
  | cons kv rest ih =>
    obtain ⟨k', v'⟩ := kv
    by_cases h : k' = k
    · simp [propsSet, h]
    · simp [propsSet, h, ih]

theorem propsPop_of_none {ps : Props} {k : String}
    (h : propsGet ps k = none) : propsPop ps k = ps := by
  induction ps with
  | nil => rfl
  | cons kv rest ih =>
    obtain ⟨k', v'⟩ := kv
    by_cases hk : k' = k
    · simp [propsGet, hk] at h
    · simp only [propsGet, if_neg hk] at h
      simp [propsPop, hk, ih h]

theorem goodProps_propsSet {ps : Props} (k : String) {v : List String}
    (hps : goodProps ps) (hv : v ≠ [] ∧ v.Nodup) :
    goodProps (propsSet ps k v) := by
  induction ps with
  | nil =>
    intro kv hkv
    simp [propsSet] at hkv
    rw [hkv]
    exact hv
  | cons kv' rest ih =>
    obtain ⟨k', v'⟩ := kv'
    have hrest : goodProps rest := fun kv hkv => hps kv (by simp [hkv])
    by_cases h : k' = k
    · intro kv hkv
      simp only [propsSet, if_pos h, List.mem_cons] at hkv
      rcases hkv with hkv | hkv
      · rw [hkv]; exact hv
      · exact hps kv (by simp [hkv])
    · intro kv hkv
      simp only [propsSet, if_neg h, List.mem_cons] at hkv
      rcases hkv with hkv | hkv
      · exact hps kv (by simp [hkv])
      · exact ih hrest kv hkv

theorem goodProps_propsPop {ps : Props} (k : String) (hps : goodProps ps) :
    goodProps (propsPop ps k) := by
  induction ps with
  | nil => exact hps
  | cons kv' rest ih =>
    obtain ⟨k', v'⟩ := kv'
    have hrest : goodProps rest := fun kv hkv => hps kv (by simp [hkv])
    by_cases h : k' = k
    · simp only [propsPop, if_pos h]
      exact hrest
    · intro kv hkv
      simp only [propsPop, if_neg h, List.mem_cons] at hkv
      rcases hkv with hkv | hkv
      · exact hps kv (by simp [hkv])
      · exact ih hrest kv hkv

theorem safe_string_empty_iff (s : String) : safe_string s = "" ↔ s = "" := by
  obtain ⟨l⟩ := s
  cases l with
  | nil => simp [safe_string, safeChars]
  | cons ch rest =>
    constructor
    · intro h
      exfalso
      simp only [safe_string, safeChars] at h
      split at h <;>
        · have := congrArg String.data h
          simp at this
    · intro h
      have := congrArg String.data h
      simp at this

/- ----------------------------------------------------------------------
   Tree-walk lemmas. -/

theorem update_recursive_ok {props : Props} {children : List Node} {b : Board}
    {m : Nat} {main : Bool} {t : ATree}
    (h : update_recursive (.mk props children) b m main = .ok t) :
    ∃ b' m' ts, update props b m = .ok (b', m') ∧
      updateChildren children b' m' main = .ok ts ∧
      t = .mk props b' m' main ts := by
  simp only [update_recursive] at h
  cases heq1 : update props b m with
  | error e => rw [heq1] at h; exact absurd h (by simp)
  | ok bm =>
    obtain ⟨b', m'⟩ := bm
    rw [heq1] at h
    dsimp only at h
    cases heq2 : updateChildren children b' m' main with
    | error e => rw [heq2] at h; exact absurd h (by simp)
    | ok ts =>
      rw [heq2] at h
      dsimp only at h
      simp only [Except.ok.injEq] at h
      exact ⟨b', m', ts, rfl, heq2, h.symm⟩

theorem updateChildren_get :
    ∀ (l : List Node) (b : Board) (m : Nat) (f : Bool) (ts : List ATree),
      updateChildren l b m f = .ok ts →
      ts.length = l.length ∧
      ∀ i, i < l.length → ∃ nc t, l.get? i = some nc ∧ ts.get? i = some t ∧
        update_recursive nc b m (if i = 0 then f else false) = .ok t := by
  intro l
  induction l with
  | nil =>
    intro b m f ts h
    simp only [updateChildren, Except.ok.injEq] at h
    subst h
    exact ⟨rfl, fun i hi => absurd hi (by simp)⟩
  | cons c rest ih =>
    intro b m f ts h
    simp only [updateChildren] at h
    cases heq1 : update_recursive c b m f with
    | error e => rw [heq1] at h; exact absurd h (by simp)
    | ok t0 =>
      rw [heq1] at h
      dsimp only at h
      cases heq2 : updateChildren rest b m false with
      | error e => rw [heq2] at h; exact absurd h (by simp)
      | ok ts' =>
        rw [heq2] at h
        dsimp only at h
        simp only [Except.ok.injEq] at h
        subst h
        obtain ⟨hlen, hget⟩ := ih b m false ts' heq2
        refine ⟨by simp [hlen], ?_⟩
        intro i hi
        cases i with
        | zero => exact ⟨c, t0, rfl, rfl, by simpa using heq1⟩
        | succ i' =>
          obtain ⟨nc, t, h1, h2, h3⟩ := hget i' (by simpa using hi)
          refine ⟨nc, t, by simpa using h1, by simpa using h2, ?_⟩
          have hfl : (if i' = 0 then false else false) = false := by
            split <;> rfl
          rw [hfl] at h3
          simpa using h3

theorem main_line_of_walk :
    ∀ (path : List Nat) (n : Node) (b : Board) (m : Nat) (f : Bool) (t u : ATree),
      update_recursive n b m f = .ok t → t.get path = some u →
      (u.is_main_line = true ↔ (f = true ∧ ∀ i ∈ path, i = 0)) := by
  intro path
  induction path with
  | nil =>
    intro n b m f t u h hg
    obtain ⟨props, children⟩ := n
    obtain ⟨b', m', ts, _, _, ht⟩ := update_recursive_ok h
    simp only [ATree.get, Option.some.injEq] at hg
    subst hg
    subst ht
    simp [ATree.is_main_line]
  | cons i rest ih =>
    intro n b m f t u h hg
    obtain ⟨props, children⟩ := n
    obtain ⟨b', m', ts, hup, hch, ht⟩ := update_recursive_ok h
    subst ht
    simp only [ATree.get, ATree.children] at hg
    cases hgi : ts.get? i with
    | none => rw [hgi] at hg; simp at hg
    | some c =>
      rw [hgi] at hg
      dsimp only at hg
      obtain ⟨hlen, hget⟩ := updateChildren_get children b' m' f ts hch
      have hi : i < children.length := by
        rw [← hlen]
        by_contra hcon
        push_neg at hcon
        rw [List.get?_eq_none.2 hcon] at hgi
        cases hgi
      obtain ⟨nc, t', h1, h2, h3⟩ := hget i hi
      rw [hgi] at h2
      have hct : c = t' := by injection h2
      subst hct
      have hmain := ih nc b' m' (if i = 0 then f else false) c u h3 hg
      rw [hmain]
      by_cases hi0 : i = 0
      · simp [hi0]
      · simp [hi0]

/- ----------------------------------------------------------------------
   Serializer lemmas. -/

theorem string_foldl_append (l : List String) :
    ∀ x y : String, l.foldl (fun r s => r ++ s) (x ++ y) =
      x ++ l.foldl (fun r s => r ++ s) y := by
  induction l with
  | nil => intro x y; rfl
  | cons a t ih =>
    intro x y
    simp only [List.foldl]
    rw [String.append_assoc]
    exact ih x (y ++ a)

theorem string_join_cons (a : String) (l : List String) :
    String.join (a :: l) = a ++ String.join l := by
  show List.foldl (fun r s => r ++ s) ("" ++ a) l = a ++ String.join l
  have h0 : ("" : String) ++ a = a := rfl
  have h1 : ("" : String) ++ a = a ++ "" := by rw [h0, String.append_empty]
  rw [h1, string_foldl_append]
  rfl

theorem writeProps_eq_specPropText (ps : Props) :
    writeProps ps = specPropText ps := by
  induction ps with
  | nil => rfl
  | cons kv rest ih =>
    obtain ⟨k, vs⟩ := kv
    simp only [writeProps, specPropText, List.map_cons, string_join_cons]
    rw [ih]
    simp only [specPropText]

theorem writeA_all : ∀ k : Nat,
    (∀ n : Node, sizeOf n ≤ k →
      ∀ acc, writeLoopA acc n = acc ++ (specChain n ++ ")\n")) ∧
    (∀ l : List Node, sizeOf l ≤ k →
      ∀ acc, writeKidsA acc l = acc ++ specKids l) := by
  intro k
  induction k with
  | zero =>
    constructor
    · intro n hn
      exfalso
      obtain ⟨props, children⟩ := n
      simp at hn
    · intro l hl
      exfalso
      cases l with
      | nil => simp at hl
      | cons c cs => simp at hl
  | succ k ih =>
    constructor
    · intro n hn acc
      obtain ⟨props, children⟩ := n
      simp only [Node.mk.sizeOf_spec] at hn
      cases children with
      | nil =>
        simp only [writeLoopA, specChain, writeProps_eq_specPropText]
        rw [String.append_empty]
        simp [String.append_assoc]
      | cons c cs =>
        cases cs with
        | nil =>
          have hc : sizeOf c ≤ k := by
            simp at hn
            omega
          simp only [writeLoopA, specChain]
          rw [(ih.1) c hc, writeProps_eq_specPropText]
          simp [String.append_assoc]
        | cons c2 cs2 =>
          have hl : sizeOf (c :: c2 :: cs2) ≤ k := by omega
          simp only [writeLoopA, specChain]
          rw [(ih.2) _ hl, writeProps_eq_specPropText]
          simp [String.append_assoc]
    · intro l hl acc
      cases l with
      | nil =>
        simp only [writeKidsA, specKids]
        rw [String.append_empty]
      | cons c cs =>
        simp only [List.cons.sizeOf_spec] at hl
        have hc : sizeOf c ≤ k := by omega
        have hcs : sizeOf cs ≤ k := by omega
        simp only [writeKidsA, specKids, writeTreeA]
        rw [(ih.2) cs hcs, (ih.1) c hc]
        simp [String.append_assoc, specRender]

/- ----------------------------------------------------------------------
   Rectangle expansion. -/

theorem points_eq_rect (s : String) (n : Nat) (h2 : 2 ≤ s.data.length) :
    points_from_points_string s n = rectPointsSpec s n := by
  unfold points_from_points_string rectPointsSpec
  rw [dif_neg (by omega)]
  have hg0 : s.data.getD 0 'a' = s.data.get ⟨0, by omega⟩ := by
    rw [List.getD_eq_get]
  have hg1 : s.data.getD 1 'a' = s.data.get ⟨1, by omega⟩ := by
    rw [List.getD_eq_get]
  have hg2 : s.data.getD (s.data.length - 2) 'a' =
      s.data.get ⟨s.data.length - 2, by omega⟩ := by
    rw [List.getD_eq_get]
  have hg3 : s.data.getD (s.data.length - 1) 'a' =
      s.data.get ⟨s.data.length - 1, by omega⟩ := by
    rw [List.getD_eq_get]
  rw [hg0, hg1, hg2, hg3]
  set a : Int := ((s.data.get ⟨0, by omega⟩).toNat : Int) - 96 with ha
  set bb : Int := ((s.data.get ⟨1, by omega⟩).toNat : Int) - 96 with hbb
  set c : Int := ((s.data.get ⟨s.data.length - 2, by omega⟩).toNat : Int) - 96 with hc
  set d : Int := ((s.data.get ⟨s.data.length - 1, by omega⟩).toNat : Int) - 96 with hd
  have hlr : (if a > c then (c, a) else (a, c)) = (min a c, max a c) := by
    by_cases h : a > c
    · rw [if_pos h, min_comm, min_eq_left (le_of_lt h), max_eq_left (le_of_lt h)]
    · rw [if_neg h]
      push_neg at h
      rw [min_eq_left h, max_eq_right h]
  have htb : (if bb > d then (d, bb) else (bb, d)) = (min bb d, max bb d) := by
    by_cases h : bb > d
    · rw [if_pos h, min_comm, min_eq_left (le_of_lt h), max_eq_left (le_of_lt h)]
    · rw [if_neg h]
      push_neg at h
      rw [min_eq_left h, max_eq_right h]
  simp only [hlr, htb]

/- ----------------------------------------------------------------------
   Error classification: the tree walk only raises IndexError (empty move
   value list) or NameError (the broken handler / undefined OffBoard). -/

theorem propsGet_mem {ps : Props} {k : String} {vs : List String}
    (h : propsGet ps k = some vs) : (k, vs) ∈ ps := by
  induction ps with
  | nil => simp [propsGet] at h
  | cons kv rest ih =>
    obtain ⟨k', v'⟩ := kv
    by_cases hk : k' = k
    · subst hk
      simp [propsGet] at h
      subst h
      simp
    · simp only [propsGet, if_neg hk] at h
      simp [ih h]

theorem applyMover_error {key : String} {colour : Nat} {ps : Props} {b : Board}
    {m : Nat} {e : PyErr} (h : applyMover key colour ps b m = .error e) :
    e = .indexError ∨ e = .nameError := by
  simp only [applyMover] at h
  split at h
  · exact absurd h (by simp)
  · split at h
    · simp only [Except.error.injEq] at h
      exact Or.inl h.symm
    · split at h
      · exact absurd h (by simp)
      · simp only [Except.error.injEq] at h
        exact Or.inr h.symm

theorem update_error {ps : Props} {b : Board} {m : Nat} {e : PyErr}
    (h : update ps b m = .error e) : e = .indexError ∨ e = .nameError := by
  simp only [update] at h
  cases hB : applyMover "B" BLACK ps b m with
  | error eB =>
    rw [hB] at h
    simp only [Except.error.injEq] at h
    exact h ▸ applyMover_error hB
  | ok bm =>
    obtain ⟨bB, mB⟩ := bm
    rw [hB] at h
    dsimp only at h
    cases hW : applyMover "W" WHITE ps bB mB with
    | error eW =>
      rw [hW] at h
      simp only [Except.error.injEq] at h
      exact h ▸ applyMover_error hW
    | ok bm2 =>
      obtain ⟨bW, mW⟩ := bm2
      rw [hW] at h
      dsimp only at h
      exact absurd h (by simp)

theorem walk_error : ∀ k : Nat,
    (∀ n : Node, sizeOf n ≤ k → ∀ b m f e,
      update_recursive n b m f = .error e → e = .indexError ∨ e = .nameError) ∧
    (∀ l : List Node, sizeOf l ≤ k → ∀ b m f e,
      updateChildren l b m f = .error e → e = .indexError ∨ e = .nameError) := by
  intro k
  induction k with
  | zero =>
    constructor
    · intro n hn
      exfalso
      obtain ⟨props, children⟩ := n
      simp at hn
    · intro l hl
      exfalso
      cases l with
      | nil => simp at hl
      | cons c cs => simp at hl
  | succ k ih =>
    constructor
    · intro n hn b m f e h
      obtain ⟨props, children⟩ := n
      simp only [update_recursive] at h
      cases hU : update props b m with
      | error eU =>
        rw [hU] at h
        simp only [Except.error.injEq] at h
        exact h ▸ update_error hU
      | ok bm =>
        obtain ⟨b', m'⟩ := bm
        rw [hU] at h
        dsimp only at h
        cases hC : updateChildren children b' m' f with
        | error eC =>
          rw [hC] at h
          simp only [Except.error.injEq] at h
          have hsz : sizeOf children ≤ k := by
            simp only [Node.mk.sizeOf_spec] at hn
            omega
          exact h ▸ (ih.2) children hsz b' m' f eC hC
        | ok ts =>
          rw [hC] at h
          dsimp only at h
          exact absurd h (by simp)
    · intro l hl b m f e h
      cases l with
      | nil => simp [updateChildren] at h
      | cons c rest =>
        simp only [List.cons.sizeOf_spec] at hl
        simp only [updateChildren] at h
        cases hR : update_recursive c b m f with
        | error eR =>
          rw [hR] at h
          simp only [Except.error.injEq] at h
          exact h ▸ (ih.1) c (by omega) b m f eR hR
        | ok t =>
          rw [hR] at h
          dsimp only at h
          cases hRest : updateChildren rest b m false with
          | error eRest =>
            rw [hRest] at h
            simp only [Except.error.injEq] at h
            exact h ▸ (ih.2) rest (by omega) b m false eRest hRest
          | ok ts =>
            rw [hRest] at h
            dsimp only at h
            exact absurd h (by simp)

/-- The tree walk never raises `BadBoardSize`. -/
theorem walk_ne_badBoardSize (n : Node) (b : Board) (m : Nat) (f : Bool) :
    update_recursive n b m f ≠ .error .badBoardSize := by
  intro h
  rcases (walk_error (sizeOf n)).1 n (le_refl _) b m f _ h with h1 | h1 <;>
    simp at h1

/- ----------------------------------------------------------------------
   The claims. -/

set_option maxRecDepth 100000

/-- Claim C1 (code bug exhibited): the claim says a black off-board move
followed by a white on-board move is swallowed inside `update`, increments
`moves_made` to 2, and leaves the Grid unchanged.  The code disagrees:
`OffBoard` is never defined in the module, so `raise OffBoard` raises
`NameError`, and evaluating the handler `except (IndexError, OffBoard)`
also raises `NameError`; the walk on the claim's own example — `B[tt]`
(decoding to (20,20), off a 19×19 board) then `W[dd]` — therefore aborts
with `NameError` instead of returning a tree with `moves_made == 2`. -/
theorem claim_C1 :
    update_recursive (.mk [("B", ["tt"])] [.mk [("W", ["dd"])] []])
      (Board.init 19) 0 true = .error .nameError := by
  simp [update_recursive, update, applyMover, propsGet, play_move,
    Board.init, BLACK, WHITE]

/-- Claim C2: for every board and in-range move with a real colour,
`play_move` first sets the cell, then removes adjacent opponent groups
without liberties (and nothing else), and decides suicide on the
post-capture board: the placed group is removed exactly when it has no
liberty there, so a capture that frees a liberty saves the stone. -/
theorem claim_C2 (b : Board) (colour : Nat) (x y : Int)
    (hcol : colour = BLACK ∨ colour = WHITE)
    (hx : 1 ≤ x ∧ x ≤ (b.boardsize : Int))
    (hy : 1 ≤ y ∧ y ≤ (b.boardsize : Int)) :
    PlayMoveConcl b colour x y :=
  play_move_spec b colour x y hcol hx hy

/-- Witness for C2 at a concrete in-range move. -/
theorem claim_C2_witness : PlayMoveConcl (Board.init 2) BLACK 1 1 :=
  claim_C2 (Board.init 2) BLACK 1 1 (Or.inl rfl) (by decide) (by decide)

/-- Claim C3: on an occupied in-range cell the liberty search terminates
(the `stones_checked` set prevents revisiting, also on rings) and returns
`true` exactly when some stone of the connected same-colour group has an
orthogonally adjacent empty point. -/
theorem claim_C3 (b : Board) (x y : Int)
    (hx : 1 ≤ x ∧ x ≤ (b.boardsize : Int))
    (hy : 1 ≤ y ∧ y ≤ (b.boardsize : Int))
    (hbw : b.state x y = BLACK ∨ b.state x y = WHITE) :
    GroupLibertiesConcl b x y :=
  group_has_liberties_iff b x y (mem_inRangeF.2 ⟨hx.1, hx.2, hy.1, hy.2⟩) hbw

/-- Witness for C3 on a ring of 8 black stones around the one empty centre
of a 3×3 board. -/
theorem claim_C3_witness :
    GroupLibertiesConcl
      ((((((((((Board.init 3).set 1 1 BLACK).set 1 2 BLACK).set 1 3
        BLACK).set 2 1 BLACK).set 2 3 BLACK).set 3 1 BLACK).set 3 2
        BLACK).set 3 3 BLACK)) 1 1 :=
  claim_C3 _ 1 1 (by decide) (by decide) (Or.inl (by decide))

/-- Claim C10: on an occupied in-range cell `destroy_group` terminates —
every call empties its own cell before recursing into same-coloured
neighbours, so the stone count strictly decreases — and the result empties
exactly the connected same-colour group of the cell, leaving every other
cell unchanged. -/
theorem claim_C10 (b : Board) (x y : Int)
    (hx : 1 ≤ x ∧ x ≤ (b.boardsize : Int))
    (hy : 1 ≤ y ∧ y ≤ (b.boardsize : Int))
    (hbw : b.state x y = BLACK ∨ b.state x y = WHITE) :
    DestroyGroupConcl b x y :=
  destroy_group_spec b x y (mem_inRangeF.2 ⟨hx.1, hx.2, hy.1, hy.2⟩) hbw

/-- Witness for C10 on a two-stone black group in a 2×2 board. -/
theorem claim_C10_witness :
    DestroyGroupConcl (((Board.init 2).set 1 1 BLACK).set 2 1 BLACK) 1 1 :=
  claim_C10 _ 1 1 (by decide) (by decide) (Or.inl (by decide))

theorem list_get?_set_other {α : Type} (a : α) :
    ∀ (l : List α) (i j : Nat), i ≠ j → (l.set i a).get? j = l.get? j := by
  intro l
  induction l with
  | nil => intro i j _; simp
  | cons x xs ih =>
    intro i j hij
    cases i with
    | zero =>
      cases j with
      | zero => exact absurd rfl hij
      | succ j' => simp [List.set]
    | succ i' =>
      cases j with
      | zero => simp [List.set]
      | succ j' =>
        simp only [List.set, List.get?]
        exact ih i' j' (by omega)

/-- Claim C4: at a branch node every child's walk depends only on its own
subtree and the parent's post-update snapshot, so replacing one child's
subtree never changes a sibling's annotation; and two siblings that
diverge from the identical snapshot can end with different contents at the
same point (black at (2,2) in the first branch, white in the second). -/
theorem claim_C4 :
    (∀ (props : Props) (l : List Node) (b : Board) (m : Nat) (f : Bool)
        (i j : Nat) (c' : Node) (t t' : ATree),
      2 ≤ l.length → i < l.length → j < l.length → i ≠ j →
      update_recursive (.mk props l) b m f = .ok t →
      update_recursive (.mk props (l.set j c')) b m f = .ok t' →
      t.children.get? i = t'.children.get? i) ∧
    ((update_recursive
        (.mk [] [.mk [("B", ["bb"])] [], .mk [("W", ["bb"])] []])
        (Board.init 3) 0 true).toOption.bind (fun t => t.get [0])).map
      (fun t0 => t0.board.state 2 2) = some BLACK ∧
    ((update_recursive
        (.mk [] [.mk [("B", ["bb"])] [], .mk [("W", ["bb"])] []])
        (Board.init 3) 0 true).toOption.bind (fun t => t.get [1])).map
      (fun t1 => t1.board.state 2 2) = some WHITE := by
  refine ⟨?_, ?_, ?_⟩
  · intro props l b m f i j c' t t' h2 hi hj hij h h'
    obtain ⟨b1, m1, ts, hup, hch, ht⟩ := update_recursive_ok h
    obtain ⟨b2, m2, ts', hup', hch', ht'⟩ := update_recursive_ok h'
    rw [hup] at hup'
    simp only [Except.ok.injEq, Prod.mk.injEq] at hup'
    obtain ⟨hb12, hm12⟩ := hup'
    subst hb12
    subst hm12
    obtain ⟨hlen, hget⟩ := updateChildren_get l b1 m1 f ts hch
    obtain ⟨hlen', hget'⟩ := updateChildren_get (l.set j c') b1 m1 f ts' hch'
    obtain ⟨nc, ta, hg1, hg2, hg3⟩ := hget i hi
    obtain ⟨nc', ta', hg1', hg2', hg3'⟩ :=
      hget' i (by rw [List.length_set]; exact hi)
    have hnc : nc' = nc := by
      rw [list_get?_set_other c' l j i (fun hh => hij hh.symm), hg1] at hg1'
      injection hg1' with hv
      exact hv.symm
    subst hnc
    rw [hg3] at hg3'
    injection hg3' with hta
    rw [ht, ht']
    simp only [ATree.children]
    rw [hg2, hg2', ← hta]
  · simp [update_recursive, updateChildren, update, applyMover, applyAdder,
      propsGet, play_move, playCaptures, group_has_liberties, ghlF, ghlLoopF,
      destroy_group, destroyF, destroyLoopF, fuelBound, adjacent_points,
      Board.set, Board.init, setAll, ATree.get, ATree.children, ATree.board,
      EMPTY, BLACK, WHITE]
    rfl
  · simp [update_recursive, updateChildren, update, applyMover, applyAdder,
      propsGet, play_move, playCaptures, group_has_liberties, ghlF, ghlLoopF,
      destroy_group, destroyF, destroyLoopF, fuelBound, adjacent_points,
      Board.set, Board.init, setAll, ATree.get, ATree.children, ATree.board,
      EMPTY, BLACK, WHITE]
    rfl

/-- Witness for C4: the frame theorem applied at a concrete two-child
node, replacing the second child, leaves the first child's annotation
unchanged. -/
theorem claim_C4_witness :
    ∃ t t', update_recursive
        (.mk [] [.mk [("B", ["bb"])] [], .mk [("W", ["bb"])] []])
        (Board.init 3) 0 true = .ok t ∧
      update_recursive
        (.mk [] [.mk [("B", ["bb"])] [], .mk [("W", ["cc"])] []])
        (Board.init 3) 0 true = .ok t' ∧
      t.children.get? 0 = t'.children.get? 0 := by
  cases hEq : update_recursive
      (.mk [] [.mk [("B", ["bb"])] [], .mk [("W", ["bb"])] []])
      (Board.init 3) 0 true with
  | error e =>
    exfalso
    simp [update_recursive, updateChildren, update, applyMover, applyAdder,
      propsGet, play_move, playCaptures, group_has_liberties, ghlF, ghlLoopF,
      destroy_group, destroyF, destroyLoopF, fuelBound, adjacent_points,
      Board.set, Board.init, setAll, EMPTY, BLACK, WHITE] at hEq
  | ok t =>
    cases hEq' : update_recursive
        (.mk [] [.mk [("B", ["bb"])] [], .mk [("W", ["cc"])] []])
        (Board.init 3) 0 true with
    | error e =>
      exfalso
      simp [update_recursive, updateChildren, update, applyMover, applyAdder,
        propsGet, play_move, playCaptures, group_has_liberties, ghlF, ghlLoopF,
        destroy_group, destroyF, destroyLoopF, fuelBound, adjacent_points,
        Board.set, Board.init, setAll, EMPTY, BLACK, WHITE] at hEq'
    | ok t' =>
      refine ⟨t, t', rfl, rfl, ?_⟩
      exact claim_C4.1 [] [.mk [("B", ["bb"])] [], .mk [("W", ["bb"])] []]
        (Board.init 3) 0 true 0 1 (.mk [("W", ["cc"])] []) t t'
        (by decide) (by decide) (by decide) (by decide) hEq hEq'

/-- Claim C5: after a walk started with `is_main_line = true`, a node of
the annotated tree is marked main line exactly when it is reached from the
root by always taking the first child. -/
theorem claim_C5 (n : Node) (b : Board) (m : Nat) (t : ATree)
    (h : update_recursive n b m true = .ok t) :
    ∀ (path : List Nat) (u : ATree), t.get path = some u →
      (u.is_main_line = true ↔ ∀ i ∈ path, i = 0) := by
  intro path u hg
  have hml := main_line_of_walk path n b m true t u h hg
  simpa using hml

/-- Witness for C5: in a concrete two-child tree, the node reached through
the second child is main line exactly when `1 = 0` — that is, never. -/
theorem claim_C5_witness :
    ∃ t u, update_recursive
        (.mk [] [.mk [("B", ["bb"])] [], .mk [("W", ["bb"])] []])
        (Board.init 3) 0 true = .ok t ∧
      t.get [1] = some u ∧
      (u.is_main_line = true ↔ ∀ i ∈ [1], i = 0) := by
  cases hEq : update_recursive
      (.mk [] [.mk [("B", ["bb"])] [], .mk [("W", ["bb"])] []])
      (Board.init 3) 0 true with
  | error e =>
    exfalso
    simp [update_recursive, updateChildren, update, applyMover, applyAdder,
      propsGet, play_move, playCaptures, group_has_liberties, ghlF, ghlLoopF,
      destroy_group, destroyF, destroyLoopF, fuelBound, adjacent_points,
      Board.set, Board.init, setAll, EMPTY, BLACK, WHITE] at hEq
  | ok t =>
    have hEq2 := hEq
    simp [update_recursive, updateChildren, update, applyMover, applyAdder,
      propsGet, play_move, playCaptures, group_has_liberties, ghlF, ghlLoopF,
      destroy_group, destroyF, destroyLoopF, fuelBound, adjacent_points,
      Board.set, Board.init, setAll, EMPTY, BLACK, WHITE] at hEq2
    subst hEq2
    refine ⟨_, _, rfl, rfl, claim_C5 _ _ _ _ hEq [1] _ rfl⟩

/-- Claim C6: an add-stone value of length at least 2 expands to exactly
the corner-normalized rectangle decoded from its first two and last two
characters, clipped to the board; `update` force-sets every such point
with no capture or suicide check on any board; and on a 19×19 board the
range `dd:pp` (corners (4,4)–(16,16)) yields exactly 169 points. -/
theorem claim_C6 :
    (∀ (s : String) (n : Nat), 2 ≤ s.data.length →
      points_from_points_string s n = rectPointsSpec s n) ∧
    (∀ (v : String) (b : Board) (m : Nat),
      update [("AB", [v])] b m =
        .ok (setAll b (points_from_points_string v b.boardsize) BLACK, m) ∧
      update [("AW", [v])] b m =
        .ok (setAll b (points_from_points_string v b.boardsize) WHITE, m) ∧
      update [("AE", [v])] b m =
        .ok (setAll b (points_from_points_string v b.boardsize) EMPTY, m)) ∧
    (points_from_points_string "dd:pp" 19).card = 169 := by
  refine ⟨fun s n h => points_eq_rect s n h, fun v b m => ⟨?_, ?_, ?_⟩, by decide⟩
  all_goals simp [update, applyMover, applyAdder, propsGet]

/-- Witness for C6: the rectangle characterization at the concrete range
value `dd:pp`. -/
theorem claim_C6_witness :
    points_from_points_string "dd:pp" 19 = rectPointsSpec "dd:pp" 19 :=
  claim_C6.1 "dd:pp" 19 (by decide)

/-- Claim C7: the serializer emits, for every tree, exactly the text of
the specification's grammar — `(`, a `;`-chain of property renderings
that tail-chains through single children, renders each child of a branch
node as a full parenthesized sub-tree, and ends with `)` and a newline. -/
theorem claim_C7 (n : Node) : write_tree n = specRender n := by
  simp only [write_tree, writeTreeA]
  have h0 : ("" : String) ++ "(" = "(" := rfl
  rw [h0, (writeA_all (sizeOf n)).1 n (le_refl _) "("]
  simp [specRender, String.append_assoc]

/-- Claim C8: for every parsed root, `load` forces `FF[4]`, `GM[1]` and
`CA[UTF-8]`; a missing `SZ` defaults the size to 19 and stores `SZ[19]`;
and `BadBoardSize` is raised exactly when the resolved integer size lies
outside 1..19, in which case no tree is returned. -/
theorem claim_C8 (root : Node) :
    (∀ t, load_post root = .ok t →
      propsGet t.props "FF" = some ["4"] ∧
      propsGet t.props "GM" = some ["1"] ∧
      propsGet t.props "CA" = some ["UTF-8"]) ∧
    (propsGet root.props "SZ" = none →
      (∀ t, load_post root = .ok t →
        propsGet t.props "SZ" = some ["19"] ∧ t.board.boardsize = 19) ∧
      load_post root ≠ .error .badBoardSize) ∧
    (∀ (v : String) (vs : List String) (size : Int),
      propsGet root.props "SZ" = some (v :: vs) → py_int v = some size →
      (load_post root = .error .badBoardSize ↔ (size > 19 ∨ size < 1))) := by
  obtain ⟨ps0, children⟩ := root
  simp only [Node.props]
  set ps3 := set_value (set_value (set_value ps0 "FF" "4") "GM" "1") "CA" "UTF-8"
    with hps3
  have hload : load_post (.mk ps0 children) =
      match propsGet ps3 "SZ" with
      | some vs =>
        match vs with
        | [] => .error .indexError
        | v :: _ =>
          match py_int v with
          | none => .error .valueError
          | some size =>
            if size > 19 ∨ size < 1 then .error .badBoardSize
            else update_recursive (.mk ps3 children)
              (Board.init size.toNat) 0 true
      | none =>
        update_recursive (.mk (set_value ps3 "SZ" "19") children)
          (Board.init 19) 0 true := rfl
  have hFF : propsGet ps3 "FF" = some ["4"] := by
    rw [hps3]
    simp only [set_value]
    rw [propsGet_propsSet_other _ _ (by decide),
      propsGet_propsSet_other _ _ (by decide), propsGet_propsSet_same]
  have hGM : propsGet ps3 "GM" = some ["1"] := by
    rw [hps3]
    simp only [set_value]
    rw [propsGet_propsSet_other _ _ (by decide), propsGet_propsSet_same]
  have hCA : propsGet ps3 "CA" = some ["UTF-8"] := by
    rw [hps3]
    simp only [set_value]
    rw [propsGet_propsSet_same]
  have hSZ3 : propsGet ps3 "SZ" = propsGet ps0 "SZ" := by
    rw [hps3]
    simp only [set_value]
    rw [propsGet_propsSet_other _ _ (by decide),
      propsGet_propsSet_other _ _ (by decide),
      propsGet_propsSet_other _ _ (by decide)]
  refine ⟨?_, ?_, ?_⟩
  · intro t ht
    rw [hload] at ht
    cases hsz0 : propsGet ps3 "SZ" with
    | none =>
      rw [hsz0] at ht
      dsimp only at ht
      obtain ⟨b', m', ts, hup, hch, htt⟩ := update_recursive_ok ht
      subst htt
      simp only [ATree.props]
      simp only [set_value]
      rw [propsGet_propsSet_other _ _ (by decide),
        propsGet_propsSet_other _ _ (by decide),
        propsGet_propsSet_other _ _ (by decide)]
      exact ⟨hFF, hGM, hCA⟩
    | some vs =>
      rw [hsz0] at ht
      dsimp only at ht
      cases vs with
      | nil => exact absurd ht (by simp)
      | cons v rest =>
        dsimp only at ht
        cases hpy : py_int v with
        | none => rw [hpy] at ht; exact absurd ht (by simp)
        | some size =>
          rw [hpy] at ht
          dsimp only at ht
          by_cases hbad : size > 19 ∨ size < 1
          · rw [if_pos hbad] at ht
            exact absurd ht (by simp)
          · rw [if_neg hbad] at ht
            obtain ⟨b', m', ts, hup, hch, htt⟩ := update_recursive_ok ht
            subst htt
            simp only [ATree.props]
            exact ⟨hFF, hGM, hCA⟩
  · intro hnone
    have hload' := hload
    rw [hSZ3, hnone] at hload'
    dsimp only at hload'
    constructor
    · intro t ht
      rw [hload'] at ht
      obtain ⟨b', m', ts, hup, hch, htt⟩ := update_recursive_ok ht
      subst htt
      simp only [ATree.props, ATree.board]
      constructor
      · simp only [set_value]
        rw [propsGet_propsSet_same]
      · exact update_boardsize hup
    · rw [hload']
      exact walk_ne_badBoardSize _ _ _ _
  · intro v vs size hsome hpy
    have hload' := hload
    rw [hSZ3, hsome] at hload'
    dsimp only at hload'
    rw [hpy] at hload'
    dsimp only at hload'
    by_cases hbad : size > 19 ∨ size < 1
    · rw [if_pos hbad] at hload'
      exact iff_of_true (by rw [hload']) hbad
    · rw [if_neg hbad] at hload'
      refine iff_of_false ?_ hbad
      rw [hload']
      exact walk_ne_badBoardSize _ _ _ _

/-- Witness for C8: a root whose `SZ` is `25` makes `load` fail with
`BadBoardSize`. -/
theorem claim_C8_witness :
    load_post (.mk [("SZ", ["25"])] []) = .error .badBoardSize :=
  ((claim_C8 (.mk [("SZ", ["25"])] [])).2.2 "25" [] 25 (by decide)
    (by decide)).2 (Or.inl (by decide))

/-- Claim C9: `safe_commit`, `add_value` and `set_value` preserve the
invariant that every present key has a non-empty, duplicate-free value
list; committing a value whose escaped form is empty removes the key (and
is a no-op when the key is absent); `add_value` appends only values not
already present. -/
theorem claim_C9 :
    (∀ (ps : Props) (k v : String), goodProps ps →
      goodProps (safe_commit ps k v)) ∧
    (∀ (ps : Props) (k v : String), goodProps ps →
      goodProps (add_value ps k v)) ∧
    (∀ (ps : Props) (k v : String), goodProps ps →
      goodProps (set_value ps k v)) ∧
    (∀ (ps : Props) (k v : String), safe_string v = "" →
      safe_commit ps k v = propsPop ps k) ∧
    (∀ (ps : Props) (k v : String), safe_string v = "" →
      propsGet ps k = none → safe_commit ps k v = ps) ∧
    (∀ (ps : Props) (k v : String) (vs : List String),
      propsGet ps k = some vs → v ∈ vs → add_value ps k v = ps) := by
  have hsc : ∀ (ps : Props) (k v : String), goodProps ps →
      goodProps (safe_commit ps k v) := by
    intro ps k v hps
    unfold safe_commit
    by_cases hs : safe_string v ≠ ""
    · rw [if_pos hs]
      exact goodProps_propsSet k hps ⟨by simp, by simp⟩
    · rw [if_neg hs]
      exact goodProps_propsPop k hps
  refine ⟨hsc, ?_, ?_, ?_, ?_, ?_⟩
  · intro ps k v hps
    unfold add_value
    cases hget : propsGet ps k with
    | some vs =>
      simp only [hget, Option.isSome_some, if_true, Option.getD_some]
      obtain ⟨hne, hnd⟩ := hps (k, vs) (propsGet_mem hget)
      by_cases hv : v ∈ vs
      · rw [if_pos hv]
        exact hps
      · rw [if_neg hv]
        refine goodProps_propsSet k hps ⟨by simp, ?_⟩
        simp [List.nodup_append, hnd, hv]
    | none =>
      simp only [hget, Option.isSome_none, Bool.false_eq_true, if_false]
      rw [propsGet_propsSet_same]
      simp only [Option.getD_some, List.not_mem_nil, if_neg (fun h => h),
        List.nil_append]
      rw [propsSet_propsSet]
      exact goodProps_propsSet k hps ⟨by simp, by simp⟩
  · intro ps k v hps
    unfold set_value
    exact goodProps_propsSet k hps ⟨by simp, by simp⟩
  · intro ps k v hs
    unfold safe_commit
    rw [if_neg (fun hcon => hcon hs)]
  · intro ps k v hs hnone
    unfold safe_commit
    rw [if_neg (fun hcon => hcon hs)]
    exact propsPop_of_none hnone
  · intro ps k v vs hget hv
    unfold add_value
    simp only [hget, Option.isSome_some, if_true, Option.getD_some]
    rw [if_pos hv]

/-- Witness for C9: the invariant holds on a concrete dictionary and is
preserved by a concrete commit. -/
theorem claim_C9_witness :
    goodProps [("PB", ["x"])] ∧
    goodProps (safe_commit [("PB", ["x"])] "PW" "bob") :=
  ⟨by unfold goodProps; decide,
    claim_C9.1 [("PB", ["x"])] "PW" "bob" (by unfold goodProps; decide)⟩

end Xyz2sgf
